import Mathlib

/-!
Verification development for the napari repository fragment consisting of
the Labels layer test suite (`napari/layers/labels/_tests/test_labels.py`),
the preferences dialog (`napari/_qt/dialogs/preferences_dialog.py`) and the
stub generator (`napari/utils/stubgen.py`).

The Labels layer implementation itself (paint, fill, undo/redo, mode
handling, ray intersections, data validation) is not part of the provided
sources; only its test suite is.  Those operations are therefore modelled
from the specification text, which describes them as flood-fill, brush
rasterization, ray-casting against transformed arrays and undo/redo of
paint operations over n-dimensional integer label arrays.  The preferences
dialog and the stub generator are embedded directly from their Python
sources.
-/

/-! ## Grid points

A point of an n-dimensional array is a list of natural-number indices.
`allPoints shape` enumerates the whole grid for a given shape, and
`inGridB` decides membership (the clipping to array bounds). -/

/-- A grid point: one natural-number index per axis. -/
abbrev Pt := List ℕ

/-- All points of the grid with the given shape. -/
def allPoints : List ℕ → List Pt
  | [] => [[]]
  | s :: rest => (List.range s).flatMap fun i => (allPoints rest).map fun p => i :: p

/-- Bounds check: the point has one coordinate per axis, each below the
axis size. -/
def inGridB : List ℕ → Pt → Bool
  | [], [] => true
  | s :: rest, a :: as => a < s && inGridB rest as
  | _, _ => false

theorem mem_allPoints {shape : List ℕ} {p : Pt} :
    p ∈ allPoints shape ↔ inGridB shape p = true := by
  induction shape generalizing p with
  | nil =>
    cases p <;> simp [allPoints, inGridB]
  | cons s rest ih =>
    cases p with
    | nil =>
      simp [allPoints, inGridB]
    | cons a as =>
      simp only [allPoints, List.mem_flatMap, List.mem_map, List.mem_range, inGridB,
        Bool.and_eq_true, decide_eq_true_eq]
      constructor
      · rintro ⟨i, hi, q, hq, heq⟩
        injection heq with h1 h2
        subst h1
        subst h2
        exact ⟨hi, ih.mp hq⟩
      · rintro ⟨ha, has⟩
        exact ⟨a, ha, as, ih.mpr has, rfl⟩

/-! ## Brush rasterization

Modelled from the spec: the Labels layer paint operation ("brush
rasterization", "paint/fill/erase label regions with brush tools") is not
in the provided sources.  A paint with brush size `b` centred at integer
coordinate `c` affects the grid points whose squared Euclidean distance to
`c`, measured over the edit dimensions only, is at most
`(floor (b / 2) + 1 / 2) ^ 2`, and which agree with `c` on every other
axis (the displayed slice).  `slicedSqDist` returns that squared distance,
or `none` when the point lies outside the slice through `c`. -/

/-- Squared distance over the edit dimensions `ed`, starting at axis `i`;
`none` when the point is off the slice through `c` or lengths mismatch. -/
def slicedSqDist (ed : List ℕ) : ℕ → List ℕ → List ℤ → Option ℤ
  | _, [], [] => some 0
  | i, p :: ps, c :: cs =>
    if i ∈ ed then (slicedSqDist ed (i + 1) ps cs).map fun r => ((p : ℤ) - c) ^ 2 + r
    else if (p : ℤ) = c then slicedSqDist ed (i + 1) ps cs else none
  | _, _, _ => none

/-- The brush membership test: within the rasterized disk (or ball) of
diameter `b` around `c` over the edit dimensions `ed`.  The comparison
`4 * d2 ≤ (2 * (b / 2) + 1) ^ 2` is the integer form of
`d2 ≤ (floor (b / 2) + 1 / 2) ^ 2`. -/
def inBrush (ed : List ℕ) (c : List ℤ) (b : ℕ) (p : Pt) : Bool :=
  match slicedSqDist ed 0 p c with
  | some d2 => 4 * d2 ≤ ((2 * (b / 2) + 1 : ℕ) : ℤ) ^ 2
  | none => false

/-- Modelled from the spec: the condition under which `paint` writes a
pixel.  The pixel must be inside the array bounds, inside the brush, and,
when `preserve_labels` is set, currently hold the background label 0. -/
def paintCond (data : Pt → ℕ) (shape : List ℕ) (ed : List ℕ) (c : List ℤ) (b : ℕ)
    (pres : Bool) (p : Pt) : Bool :=
  inGridB shape p && inBrush ed c b p && (!pres || data p == 0)

/-- Modelled from the spec: the data after `paint(c, lab)` with brush size
`b`, edit dimensions `ed` and the `preserve_labels` flag `pres`. -/
def paintData (data : Pt → ℕ) (shape : List ℕ) (ed : List ℕ) (c : List ℤ) (b : ℕ)
    (pres : Bool) (lab : ℕ) : Pt → ℕ :=
  fun p => if paintCond data shape ed c b pres p then lab else data p

/-- Number of painted pixels for a whole-grid paint count. -/
def paintCount (shape : List ℕ) (ed : List ℕ) (c : List ℤ) (b : ℕ) : ℕ :=
  (allPoints shape).countP fun p => inBrush ed c b p

set_option maxRecDepth 4000

/-- C3: `paint(coord, label)` with brush size `b` sets to `label` exactly
the pixels of the rasterized circular brush of diameter `b` centred at
`coord`, clipped to the array bounds, over the current edit dimensions;
all other pixels keep their previous values.  Concretely, brush size 12
centred at the corner of a 40 x 40 zero array labels exactly 41 pixels,
brush size 12 in the interior labels exactly 137 pixels, and brush size 2
over three edit dimensions labels exactly 19 voxels. -/
theorem paint_characterization :
    (∀ (data : Pt → ℕ) (shape ed : List ℕ) (c : List ℤ) (b lab : ℕ) (p : Pt),
        paintData data shape ed c b false lab p =
          if inGridB shape p && inBrush ed c b p then lab else data p) ∧
    paintCount [40, 40] [0, 1] [0, 0] 12 = 41 ∧
    paintCount [40, 40] [0, 1] [20, 20] 12 = 137 ∧
    paintCount [5, 6, 7, 8] [1, 2, 3] [1, 1, 1, 1] 2 = 19 := by
  refine ⟨fun data shape ed c b lab p => ?_, by decide, by decide, by decide⟩
  simp [paintData, paintCond]

/-- C7: with `preserve_labels` set, painting never modifies a pixel whose
current value is a non-background label. -/
theorem paint_preserve_labels (data : Pt → ℕ) (shape ed : List ℕ) (c : List ℤ)
    (b lab : ℕ) (p : Pt) (h : data p ≠ 0) :
    paintData data shape ed c b true lab p = data p := by
  have hb : (data p == 0) = false := by
    simpa using h
  simp [paintData, paintCond, hb]

/-- Witness for C7 at a concrete input: the pixel `[0, 0]` holds label 7,
and painting over it with brush size 12, label 3 and `preserve_labels`
leaves it at 7. -/
theorem paint_preserve_labels_witness :
    (fun _ : Pt => 7) [0, 0] ≠ 0 ∧
      paintData (fun _ => 7) [40, 40] [0, 1] [0, 0] 12 true 3 [0, 0] = 7 :=
  ⟨by decide, paint_preserve_labels (fun _ => 7) [40, 40] [0, 1] [0, 0] 12 3 [0, 0]
    (by decide)⟩

/-! ## Flood fill

Modelled from the spec: the Labels layer `fill` operation ("flood-fill")
is not in the provided sources.  With `contiguous=True`, filling at a
coordinate `c` recolours the connected component, within the slice through
`c` spanned by the edit dimensions, of the pixels holding the value found
at `c`.  The component is computed by saturating an adjacency step
starting from `{c}`, and is proved below to coincide with the declarative
reflexive-transitive closure of the adjacency relation. -/

/-- Agreement of two points on every axis outside the edit dimensions
`ed`, starting at axis `i`; also checks equal lengths. -/
def offSliceEq (ed : List ℕ) : ℕ → List ℕ → List ℕ → Bool
  | _, [], [] => true
  | i, a :: as, b :: bs => (decide (i ∈ ed) || a == b) && offSliceEq ed (i + 1) as bs
  | _, _, _ => false

theorem offSliceEq_refl (ed : List ℕ) : ∀ (i : ℕ) (q : List ℕ), offSliceEq ed i q q = true := by
  intro i q
  induction q generalizing i with
  | nil => rfl
  | cons a as ih => simp [offSliceEq, ih]

/-- Orthogonal adjacency along one of the edit dimensions: the two points
differ by exactly one in a single coordinate, which lies in `ed`, and are
equal elsewhere. -/
def adjB (ed : List ℕ) : ℕ → List ℕ → List ℕ → Bool
  | i, a :: as, b :: bs =>
    if a = b then adjB ed (i + 1) as bs
    else decide (i ∈ ed) && (a + 1 == b || b + 1 == a) && as == bs
  | _, _, _ => false

/-- A cell is valid for the fill started at `c` when it is inside the
array bounds, holds the same value as `c`, and lies in the slice through
`c` spanned by the edit dimensions. -/
def validB (data : Pt → ℕ) (shape ed : List ℕ) (c : Pt) (q : Pt) : Bool :=
  inGridB shape q && (data q == data c) && offSliceEq ed 0 q c

/-- The finite set of valid cells. -/
def validCells (data : Pt → ℕ) (shape ed : List ℕ) (c : Pt) : Finset Pt :=
  (allPoints shape).toFinset.filter fun q => validB data shape ed c q = true

/-- One saturation step: add every valid cell adjacent to the current set. -/
def fillStep (data : Pt → ℕ) (shape ed : List ℕ) (c : Pt) (S : Finset Pt) : Finset Pt :=
  S ∪ (validCells data shape ed c).filter fun q => ∃ p ∈ S, adjB ed 0 p q = true

/-- The filled region: saturate for as many steps as there are grid
cells, starting from the seed `c`. -/
def fillSet (data : Pt → ℕ) (shape ed : List ℕ) (c : Pt) : Finset Pt :=
  (fillStep data shape ed c)^[(allPoints shape).length] {c}

/-- Modelled from the spec: the data after `fill(c, lab)`. -/
def fillData (data : Pt → ℕ) (shape ed : List ℕ) (c : Pt) (lab : ℕ) : Pt → ℕ :=
  fun p => if p ∈ fillSet data shape ed c then lab else data p

/-- One step of connectivity: `b` is a valid cell adjacent to `a`. -/
def FillRel (data : Pt → ℕ) (shape ed : List ℕ) (c : Pt) (a b : Pt) : Prop :=
  validB data shape ed c b = true ∧ adjB ed 0 a b = true

/-- Declarative connected component: reflexive-transitive closure of the
one-step relation, seeded at `c`. -/
def Conn (data : Pt → ℕ) (shape ed : List ℕ) (c : Pt) (p : Pt) : Prop :=
  Relation.ReflTransGen (FillRel data shape ed c) c p

theorem subset_fillStep (data : Pt → ℕ) (shape ed : List ℕ) (c : Pt) (S : Finset Pt) :
    S ⊆ fillStep data shape ed c S :=
  Finset.subset_union_left

theorem fillStep_mono (data : Pt → ℕ) (shape ed : List ℕ) (c : Pt) {S T : Finset Pt}
    (h : S ⊆ T) : fillStep data shape ed c S ⊆ fillStep data shape ed c T := by
  refine Finset.union_subset_union h (Finset.monotone_filter_right _ ?_)
  intro q hq
  obtain ⟨p, hp, hadj⟩ := hq
  exact ⟨p, h hp, hadj⟩

theorem fillStep_subset_union (data : Pt → ℕ) (shape ed : List ℕ) (c : Pt) (S : Finset Pt) :
    fillStep data shape ed c S ⊆ S ∪ validCells data shape ed c :=
  Finset.union_subset_union (Finset.Subset.refl S) (Finset.filter_subset _ _)

theorem iter_subset_succ (data : Pt → ℕ) (shape ed : List ℕ) (c : Pt) (k : ℕ) :
    (fillStep data shape ed c)^[k] {c} ⊆ (fillStep data shape ed c)^[k + 1] {c} := by
  rw [Function.iterate_succ_apply']
  exact subset_fillStep data shape ed c _

theorem iter_subset_of_le (data : Pt → ℕ) (shape ed : List ℕ) (c : Pt) {k m : ℕ}
    (h : k ≤ m) :
    (fillStep data shape ed c)^[k] {c} ⊆ (fillStep data shape ed c)^[m] {c} := by
  induction m with
  | zero =>
    cases Nat.le_zero.mp h
    exact Finset.Subset.refl _
  | succ m ih =>
    rcases Nat.lt_or_ge k (m + 1) with hlt | hge
    · exact (ih (Nat.lt_succ_iff.mp hlt)).trans (iter_subset_succ data shape ed c m)
    · cases Nat.le_antisymm h hge
      exact Finset.Subset.refl _

theorem iter_subset_validCells (data : Pt → ℕ) (shape ed : List ℕ) (c : Pt)
    (hc : c ∈ validCells data shape ed c) (k : ℕ) :
    (fillStep data shape ed c)^[k] {c} ⊆ validCells data shape ed c := by
  induction k with
  | zero =>
    intro p hp
    cases Finset.mem_singleton.mp hp
    exact hc
  | succ k ih =>
    rw [Function.iterate_succ_apply']
    refine ((fillStep_subset_union data shape ed c _).trans ?_)
    exact Finset.union_subset ih (Finset.Subset.refl _)

theorem iter_fix_propagate (data : Pt → ℕ) (shape ed : List ℕ) (c : Pt) {j : ℕ}
    (hfix : (fillStep data shape ed c)^[j + 1] {c} = (fillStep data shape ed c)^[j] {c})
    {m : ℕ} (h : j ≤ m) :
    (fillStep data shape ed c)^[m] {c} = (fillStep data shape ed c)^[j] {c} := by
  induction m with
  | zero =>
    cases Nat.le_zero.mp h
    rfl
  | succ m ih =>
    rcases Nat.lt_or_ge j (m + 1) with hlt | hge
    · have hm := ih (Nat.lt_succ_iff.mp hlt)
      calc (fillStep data shape ed c)^[m + 1] {c}
          = fillStep data shape ed c ((fillStep data shape ed c)^[m] {c}) := by
            rw [Function.iterate_succ_apply']
        _ = fillStep data shape ed c ((fillStep data shape ed c)^[j] {c}) := by rw [hm]
        _ = (fillStep data shape ed c)^[j + 1] {c} := by rw [Function.iterate_succ_apply']
        _ = (fillStep data shape ed c)^[j] {c} := hfix
    · cases Nat.le_antisymm h hge
      rfl

theorem iter_card_growth (data : Pt → ℕ) (shape ed : List ℕ) (c : Pt) (k : ℕ)
    (h : ∀ j, j < k →
      (fillStep data shape ed c)^[j] {c} ≠ (fillStep data shape ed c)^[j + 1] {c}) :
    k + 1 ≤ ((fillStep data shape ed c)^[k] {c}).card := by
  induction k with
  | zero => simp
  | succ k ih =>
    have hss : (fillStep data shape ed c)^[k] {c} ⊂ (fillStep data shape ed c)^[k + 1] {c} :=
      lt_of_le_of_ne (iter_subset_succ data shape ed c k) (h k (Nat.lt_succ_self k))
    have hlt := Finset.card_lt_card hss
    have hk := ih fun j hj => h j (hj.trans (Nat.lt_succ_self k))
    omega

theorem fillSet_fix (data : Pt → ℕ) (shape ed : List ℕ) (c : Pt)
    (hc : c ∈ validCells data shape ed c) :
    fillStep data shape ed c (fillSet data shape ed c) = fillSet data shape ed c := by
  set N := (allPoints shape).length with hN
  have hcard : (validCells data shape ed c).card ≤ N := by
    calc (validCells data shape ed c).card
        ≤ (allPoints shape).toFinset.card := Finset.card_filter_le _ _
      _ ≤ N := List.toFinset_card_le _
  have hexists : ∃ j, j < N ∧
      (fillStep data shape ed c)^[j] {c} = (fillStep data shape ed c)^[j + 1] {c} := by
    by_contra hnone
    push_neg at hnone
    have hgrow := iter_card_growth data shape ed c N fun j hj => hnone j hj
    have hbound := Finset.card_le_card (iter_subset_validCells data shape ed c hc N)
    omega
  obtain ⟨j, hjN, hfix⟩ := hexists
  have h1 : (fillStep data shape ed c)^[N] {c} = (fillStep data shape ed c)^[j] {c} :=
    iter_fix_propagate data shape ed c hfix.symm (Nat.le_of_lt hjN)
  have h2 : (fillStep data shape ed c)^[N + 1] {c} = (fillStep data shape ed c)^[j] {c} :=
    iter_fix_propagate data shape ed c hfix.symm (Nat.le_of_lt (hjN.trans (Nat.lt_succ_self N)))
  show fillStep data shape ed c ((fillStep data shape ed c)^[N] {c}) =
    (fillStep data shape ed c)^[N] {c}
  calc fillStep data shape ed c ((fillStep data shape ed c)^[N] {c})
      = (fillStep data shape ed c)^[N + 1] {c} :=
        (Function.iterate_succ_apply' (fillStep data shape ed c) N {c}).symm
    _ = (fillStep data shape ed c)^[j] {c} := h2
    _ = (fillStep data shape ed c)^[N] {c} := h1.symm

theorem iter_sound (data : Pt → ℕ) (shape ed : List ℕ) (c : Pt) (k : ℕ) :
    ∀ p ∈ (fillStep data shape ed c)^[k] {c}, Conn data shape ed c p := by
  induction k with
  | zero =>
    intro p hp
    cases Finset.mem_singleton.mp hp
    exact Relation.ReflTransGen.refl
  | succ k ih =>
    intro p hp
    rw [Function.iterate_succ_apply'] at hp
    rcases Finset.mem_union.mp hp with hin | hnew
    · exact ih p hin
    · obtain ⟨hval, q, hq, hadj⟩ := Finset.mem_filter.mp hnew
      have hvalid : validB data shape ed c p = true :=
        (Finset.mem_filter.mp hval).2
      exact Relation.ReflTransGen.tail (ih q hq) ⟨hvalid, hadj⟩

theorem conn_mem_fillSet (data : Pt → ℕ) (shape ed : List ℕ) (c : Pt)
    (hc : c ∈ validCells data shape ed c) {p : Pt} (h : Conn data shape ed c p) :
    p ∈ fillSet data shape ed c := by
  induction h with
  | refl =>
    have h0 : c ∈ (fillStep data shape ed c)^[0] {c} := Finset.mem_singleton_self c
    exact iter_subset_of_le data shape ed c (Nat.zero_le _) h0
  | tail hab hrel ih =>
    rw [← fillSet_fix data shape ed c hc]
    rename_i b p'
    refine Finset.mem_union.mpr (Or.inr (Finset.mem_filter.mpr ⟨?_, b, ih, hrel.2⟩))
    have hgrid : inGridB shape p' = true := by
      have hv := hrel.1
      unfold validB at hv
      simp only [Bool.and_eq_true] at hv
      exact hv.1.1
    exact Finset.mem_filter.mpr ⟨List.mem_toFinset.mpr (mem_allPoints.mpr hgrid), hrel.1⟩

/-- C2: with `contiguous=True`, `fill(coord, new_label)` replaces with
`new_label` exactly the connected component, restricted to the current
edit dimensions, of the pixels sharing the value found at `coord`; every
pixel outside that component keeps its previous value. -/
theorem fill_connected_component (data : Pt → ℕ) (shape ed : List ℕ) (c : Pt) (lab : ℕ)
    (hc : inGridB shape c = true) :
    ∀ p : Pt,
      (p ∈ fillSet data shape ed c ↔ Conn data shape ed c p) ∧
      (Conn data shape ed c p → fillData data shape ed c lab p = lab) ∧
      (¬ Conn data shape ed c p → fillData data shape ed c lab p = data p) := by
  have hcv : c ∈ validCells data shape ed c := by
    refine Finset.mem_filter.mpr ⟨List.mem_toFinset.mpr (mem_allPoints.mpr hc), ?_⟩
    simp [validB, hc, offSliceEq_refl]
  intro p
  have hiff : p ∈ fillSet data shape ed c ↔ Conn data shape ed c p := by
    constructor
    · intro hp
      exact iter_sound data shape ed c _ p hp
    · intro h
      exact conn_mem_fillSet data shape ed c hcv h
  refine ⟨hiff, ?_, ?_⟩
  · intro h
    simp [fillData, hiff.mpr h]
  · intro h
    have : p ∉ fillSet data shape ed c := fun hp => h (hiff.mp hp)
    simp [fillData, this]

/-- Witness for C2 at a concrete input: the centre of a 3 x 3 grid is in
bounds, and the characterization of `fill` applies there. -/
theorem fill_connected_component_witness :
    inGridB [3, 3] [1, 1] = true ∧
      ∀ p : Pt,
        (p ∈ fillSet (fun _ => 0) [3, 3] [0, 1] [1, 1] ↔
          Conn (fun _ => 0) [3, 3] [0, 1] [1, 1] p) ∧
        (Conn (fun _ => 0) [3, 3] [0, 1] [1, 1] p →
          fillData (fun _ => 0) [3, 3] [0, 1] [1, 1] 5 p = 5) ∧
        (¬ Conn (fun _ => 0) [3, 3] [0, 1] [1, 1] p →
          fillData (fun _ => 0) [3, 3] [0, 1] [1, 1] 5 p = (fun _ => 0) p) :=
  ⟨by decide, fill_connected_component (fun _ => 0) [3, 3] [0, 1] [1, 1] 5 (by decide)⟩

/-! ## Undo / redo of paint and fill

Modelled from the spec: "undo/redo of paint operations" is not in the
provided sources.  Each edit records, for every pixel it may touch, the
value held before the edit; `undo` plays such a record back while saving
the current values for `redo`, and symmetrically. -/

theorem fillSet_subset_insert (data : Pt → ℕ) (shape ed : List ℕ) (c : Pt) :
    fillSet data shape ed c ⊆ insert c (validCells data shape ed c) := by
  show (fillStep data shape ed c)^[(allPoints shape).length] {c} ⊆ _
  generalize (allPoints shape).length = k
  induction k with
  | zero =>
    intro p hp
    cases Finset.mem_singleton.mp hp
    exact Finset.mem_insert_self c _
  | succ k ih =>
    rw [Function.iterate_succ_apply']
    refine (fillStep_subset_union data shape ed c _).trans ?_
    refine Finset.union_subset ih ?_
    intro p hp
    exact Finset.mem_insert_of_mem hp

/-- Play back a change record: each `(p, v)` entry resets pixel `p` to
value `v`; other pixels are untouched. -/
def applyDiff (d : List (Pt × ℕ)) (f : Pt → ℕ) : Pt → ℕ :=
  fun q =>
    match d.find? (fun e => e.1 == q) with
    | some e => e.2
    | none => f q

theorem applyDiff_restore (pts : List Pt) (f g : Pt → ℕ)
    (h : ∀ q, q ∉ pts → g q = f q) :
    ∀ q, applyDiff (pts.map fun p => (p, f p)) g q = f q := by
  intro q
  unfold applyDiff
  cases hfind : (pts.map fun p => (p, f p)).find? (fun e => e.1 == q) with
  | some e =>
    have hpred := List.find?_some hfind
    have hmem := List.mem_of_find?_eq_some hfind
    obtain ⟨p, _, rfl⟩ := List.mem_map.mp hmem
    have : p = q := by simpa using hpred
    simp [this]
  | none =>
    have hq : q ∉ pts := by
      intro hqin
      have hall := List.find?_eq_none.mp hfind
      have := hall (q, f q) (List.mem_map.mpr ⟨q, hqin, rfl⟩)
      simp at this
    exact h q hq

/-- The Labels layer state relevant to editing: shape, edit dimensions,
pixel data and the undo and redo histories of change records. -/
structure LabelsState where
  shape : List ℕ
  editDims : List ℕ
  data : Pt → ℕ
  undoHist : List (List (Pt × ℕ))
  redoHist : List (List (Pt × ℕ))

/-- A single edit: a paint (an erase is a paint with label 0) or a fill. -/
inductive LabelsEdit where
  | paintE (c : List ℤ) (b : ℕ) (lab : ℕ) (pres : Bool)
  | fillE (c : Pt) (lab : ℕ)

/-- The pixels an edit may touch. -/
def editPts (st : LabelsState) : LabelsEdit → List Pt
  | .paintE c b _ pres =>
    (allPoints st.shape).filter fun p => paintCond st.data st.shape st.editDims c b pres p
  | .fillE c _ =>
    c :: (allPoints st.shape).filter fun p => p ∈ fillSet st.data st.shape st.editDims c

/-- The data after an edit. -/
def editData (st : LabelsState) : LabelsEdit → (Pt → ℕ)
  | .paintE c b lab pres => paintData st.data st.shape st.editDims c b pres lab
  | .fillE c lab => fillData st.data st.shape st.editDims c lab

/-- Apply an edit: change the data, push the change record onto the undo
history, clear the redo history. -/
def applyEdit (st : LabelsState) (e : LabelsEdit) : LabelsState :=
  { st with
    data := editData st e
    undoHist := ((editPts st e).map fun p => (p, st.data p)) :: st.undoHist
    redoHist := [] }

/-- Undo the most recent edit. -/
def undo (st : LabelsState) : LabelsState :=
  match st.undoHist with
  | [] => st
  | d :: rest =>
    { st with
      data := applyDiff d st.data
      undoHist := rest
      redoHist := (d.map fun e => (e.1, st.data e.1)) :: st.redoHist }

/-- Redo the most recently undone edit. -/
def redo (st : LabelsState) : LabelsState :=
  match st.redoHist with
  | [] => st
  | d :: rest =>
    { st with
      data := applyDiff d st.data
      redoHist := rest
      undoHist := (d.map fun e => (e.1, st.data e.1)) :: st.undoHist }

theorem editData_eq_off (st : LabelsState) (e : LabelsEdit) :
    ∀ q, q ∉ editPts st e → editData st e q = st.data q := by
  intro q hq
  cases e with
  | paintE c b lab pres =>
    have hcond : paintCond st.data st.shape st.editDims c b pres q = false := by
      by_contra hne
      have htrue : paintCond st.data st.shape st.editDims c b pres q = true := by
        revert hne
        cases paintCond st.data st.shape st.editDims c b pres q <;> simp
      have hgrid : inGridB st.shape q = true := by
        unfold paintCond at htrue
        simp only [Bool.and_eq_true] at htrue
        exact htrue.1.1
      exact hq (List.mem_filter.mpr ⟨mem_allPoints.mpr hgrid, htrue⟩)
    simp [editData, paintData, hcond]
  | fillE c lab =>
    have hnot : q ∉ fillSet st.data st.shape st.editDims c := by
      intro hmem
      rcases Finset.mem_insert.mp (fillSet_subset_insert st.data st.shape st.editDims c hmem)
        with hqc | hqv
      · exact hq (by simp [editPts, hqc])
      · have hgrid : inGridB st.shape q = true := by
          have hvm := Finset.mem_filter.mp hqv
          have := List.mem_toFinset.mp hvm.1
          exact mem_allPoints.mp this
        refine hq ?_
        simp only [editPts, List.mem_cons, List.mem_filter]
        exact Or.inr ⟨mem_allPoints.mpr hgrid, by simpa using hmem⟩
    simp [editData, fillData, hnot]

/-- C1: for every Labels layer state and every single paint, fill or
erase edit (an erase is a paint with label 0), `undo` immediately after
the edit restores the data to its exact value before the edit, and `redo`
after that `undo` restores the exact post-edit data; this holds for every
brush size, every label, both values of `preserve_labels`, and every
choice of edit dimensions. -/
theorem undo_redo_roundtrip (st : LabelsState) (e : LabelsEdit) :
    (∀ p, (undo (applyEdit st e)).data p = st.data p) ∧
    (∀ p, (redo (undo (applyEdit st e))).data p = (applyEdit st e).data p) := by
  have hoff := editData_eq_off st e
  have hundo : ∀ p, (undo (applyEdit st e)).data p = st.data p := by
    intro p
    show applyDiff ((editPts st e).map fun p => (p, st.data p)) (editData st e) p = st.data p
    exact applyDiff_restore (editPts st e) st.data (editData st e) hoff p
  refine ⟨hundo, ?_⟩
  intro p
  have hmapmap :
      (((editPts st e).map fun p => (p, st.data p)).map fun x => (x.1, editData st e x.1)) =
        (editPts st e).map fun p => (p, editData st e p) := by
    rw [List.map_map]
    rfl
  show applyDiff
      ((((editPts st e).map fun p => (p, st.data p)).map fun x => (x.1, editData st e x.1)))
      (applyDiff ((editPts st e).map fun p => (p, st.data p)) (editData st e)) p =
    editData st e p
  rw [hmapmap]
  refine applyDiff_restore (editPts st e) (editData st e) _ ?_ p
  intro q hq
  have h1 : applyDiff ((editPts st e).map fun p => (p, st.data p)) (editData st e) q =
      st.data q :=
    applyDiff_restore (editPts st e) st.data (editData st e) hoff q
  rw [h1]
  exact (hoff q hq).symm

/-! ## Ray intersections with the data bounding box

Modelled from the spec: `get_ray_intersections` ("ray-casting against
transformed multiscale arrays") is not in the provided sources.  A world
click position is mapped to data coordinates axis by axis as
`(w - t) / s` for scale `s` and translate `t`; the view direction is
mapped as `d / s`.  The entry and exit points of the resulting ray with
the axis-aligned data bounding box `[0, size - 1]` over the displayed
axes are computed with the slab method; `none` models the
`(None, None)` miss result. -/

/-- World vectors and data vectors: one rational per axis. -/
abbrev Vec := List ℚ

/-- World position to data coordinates: `(w - t) / s` on each axis. -/
def invTransform : Vec → Vec → Vec → Vec
  | w :: ws, t :: ts, s :: ss => ((w - t) / s) :: invTransform ws ts ss
  | _, _, _ => []

/-- World direction to data direction: `d / s` on each axis. -/
def invScaleDir : Vec → Vec → Vec
  | d :: ds, s :: ss => (d / s) :: invScaleDir ds ss
  | _, _ => []

/-- The point of the view ray at parameter `t`: moves along the displayed
axes `dd`, keeps the origin coordinate elsewhere. -/
def rayPointAt (dd : List ℕ) : ℕ → Vec → Vec → ℚ → Vec
  | i, o :: os, d :: ds, t =>
    (if i ∈ dd then o + t * d else o) :: rayPointAt dd (i + 1) os ds t
  | _, _, _, _ => []

/-- Membership in the axis-aligned data bounding box `[0, size - 1]` over
the displayed axes `dd`. -/
def inBoxB (dd : List ℕ) : ℕ → Vec → List ℕ → Bool
  | _, [], [] => true
  | i, p :: ps, s :: ss =>
    ((!decide (i ∈ dd)) || (decide ((0 : ℚ) ≤ p) && decide (p ≤ (s : ℚ) - 1))) &&
      inBoxB dd (i + 1) ps ss
  | _, _, _ => false

/-- Tighten a lower bound of the slab interval (`none` stands for
unbounded). -/
def pushLo (lo : Option ℚ) (x : ℚ) : Option ℚ :=
  some (match lo with | none => x | some a => max a x)

/-- Tighten an upper bound of the slab interval. -/
def pushHi (hi : Option ℚ) (x : ℚ) : Option ℚ :=
  some (match hi with | none => x | some b => min b x)

/-- Satisfaction of an optional lower bound. -/
def loOK (lo : Option ℚ) (t : ℚ) : Prop :=
  match lo with | none => True | some a => a ≤ t

/-- Satisfaction of an optional upper bound. -/
def hiOK (hi : Option ℚ) (t : ℚ) : Prop :=
  match hi with | none => True | some b => t ≤ b

/-- The slab method: intersect, axis by axis over the displayed
dimensions, the parameter intervals in which the ray lies between the box
faces; `none` means the intersection is already known to be empty. -/
def slabs (dd : List ℕ) : ℕ → Vec → Vec → List ℕ → Option (Option ℚ × Option ℚ)
  | _, [], [], [] => some (none, none)
  | i, o :: os, d :: ds, s :: ss =>
    match slabs dd (i + 1) os ds ss with
    | none => none
    | some (lo, hi) =>
      if i ∈ dd then
        if d = 0 then
          if (0 : ℚ) ≤ o ∧ o ≤ (s : ℚ) - 1 then some (lo, hi) else none
        else
          some (pushLo lo (min ((0 - o) / d) (((s : ℚ) - 1 - o) / d)),
                pushHi hi (max ((0 - o) / d) (((s : ℚ) - 1 - o) / d)))
      else some (lo, hi)
  | _, _, _, _ => none

/-- Modelled from the spec: `get_ray_intersections(position,
view_direction, dims_displayed)` after inverting the layer's scale and
translate transforms. -/
def getRayIntersections (pos dir scale translate : Vec) (shape : List ℕ) (dd : List ℕ) :
    Option (Vec × Vec) :=
  let o := invTransform pos translate scale
  let d := invScaleDir dir scale
  match slabs dd 0 o d shape with
  | some (some lo, some hi) =>
    if lo ≤ hi then some (rayPointAt dd 0 o d lo, rayPointAt dd 0 o d hi) else none
  | _ => none

/-- The ray direction drives at least one displayed axis. -/
def hasDrive (dd : List ℕ) : ℕ → Vec → Bool
  | _, [] => false
  | i, d0 :: ds => (decide (i ∈ dd) && !(d0 == 0)) || hasDrive dd (i + 1) ds

theorem invTransform_length : ∀ (w t s : Vec), w.length = t.length → w.length = s.length →
    (invTransform w t s).length = w.length := by
  intro w
  induction w with
  | nil =>
    intro t s _ _
    cases t <;> cases s <;> simp [invTransform]
  | cons w0 ws ih =>
    intro t s ht hs
    cases t with
    | nil => simp at ht
    | cons t0 ts =>
      cases s with
      | nil => simp at hs
      | cons s0 ss =>
        simp only [invTransform, List.length_cons, Nat.succ.injEq]
        exact ih ts ss (by simpa using ht) (by simpa using hs)

theorem invScaleDir_length : ∀ (d s : Vec), d.length = s.length →
    (invScaleDir d s).length = d.length := by
  intro d
  induction d with
  | nil =>
    intro s _
    cases s <;> simp [invScaleDir]
  | cons d0 ds ih =>
    intro s hs
    cases s with
    | nil => simp at hs
    | cons s0 ss =>
      simp only [invScaleDir, List.length_cons, Nat.succ.injEq]
      exact ih ss (by simpa using hs)

theorem slab_axis (o d M t : ℚ) (hd : d ≠ 0) (hM : 0 ≤ M) :
    ((0 : ℚ) ≤ o + t * d ∧ o + t * d ≤ M) ↔
      (min ((0 - o) / d) ((M - o) / d) ≤ t ∧ t ≤ max ((0 - o) / d) ((M - o) / d)) := by
  rcases lt_or_gt_of_ne hd with hneg | hpos
  · have hle : (M - o) / d ≤ (0 - o) / d := by
      apply div_le_div_of_nonpos_of_le (le_of_lt hneg)
      linarith
    rw [min_eq_right hle, max_eq_left hle]
    constructor
    · rintro ⟨h1, h2⟩
      constructor
      · rw [div_le_iff_of_neg hneg]
        linarith
      · rw [le_div_iff_of_neg hneg]
        linarith
    · rintro ⟨h1, h2⟩
      rw [div_le_iff_of_neg hneg] at h1
      rw [le_div_iff_of_neg hneg] at h2
      constructor <;> linarith
  · have hle : (0 - o) / d ≤ (M - o) / d := by
      apply div_le_div_of_nonneg_right ?_ hpos.le
      linarith
    rw [min_eq_left hle, max_eq_right hle]
    constructor
    · rintro ⟨h1, h2⟩
      constructor
      · rw [div_le_iff₀ hpos]
        linarith
      · rw [le_div_iff₀ hpos]
        linarith
    · rintro ⟨h1, h2⟩
      rw [div_le_iff₀ hpos] at h1
      rw [le_div_iff₀ hpos] at h2
      constructor <;> linarith

theorem loOK_pushLo (lo : Option ℚ) (x t : ℚ) :
    loOK (pushLo lo x) t ↔ loOK lo t ∧ x ≤ t := by
  cases lo with
  | none => simp [loOK, pushLo]
  | some a => simp [loOK, pushLo, max_le_iff, and_comm]

theorem hiOK_pushHi (hi : Option ℚ) (x t : ℚ) :
    hiOK (pushHi hi x) t ↔ hiOK hi t ∧ t ≤ x := by
  cases hi with
  | none => simp [hiOK, pushHi]
  | some b => simp [hiOK, pushHi, le_min_iff, and_comm]


theorem inBoxB_cons (dd : List ℕ) (i : ℕ) (x : ℚ) (ps : Vec) (s : ℕ) (ss : List ℕ) :
    inBoxB dd i (x :: ps) (s :: ss) = true ↔
      ((i ∈ dd → ((0 : ℚ) ≤ x ∧ x ≤ (s : ℚ) - 1)) ∧ inBoxB dd (i + 1) ps ss = true) := by
  by_cases hidd : i ∈ dd <;> simp [inBoxB, hidd]

theorem rayPointAt_cons (dd : List ℕ) (i : ℕ) (o0 : ℚ) (os : Vec) (d0 : ℚ) (ds : Vec)
    (t : ℚ) :
    rayPointAt dd i (o0 :: os) (d0 :: ds) t =
      (if i ∈ dd then o0 + t * d0 else o0) :: rayPointAt dd (i + 1) os ds t := rfl

theorem slabs_mem (dd : List ℕ) :
    ∀ (sh : List ℕ) (i : ℕ) (o d : Vec),
      o.length = sh.length → d.length = sh.length → (∀ s ∈ sh, 1 ≤ s) →
      (slabs dd i o d sh = none →
        ∀ t : ℚ, inBoxB dd i (rayPointAt dd i o d t) sh = false) ∧
      (∀ lo hi, slabs dd i o d sh = some (lo, hi) →
        ∀ t : ℚ, (inBoxB dd i (rayPointAt dd i o d t) sh = true ↔ loOK lo t ∧ hiOK hi t)) := by
  intro sh
  induction sh with
  | nil =>
    intro i o d ho hd _
    rw [List.length_nil, List.length_eq_zero] at ho hd
    subst ho
    subst hd
    constructor
    · intro hnone
      simp [slabs] at hnone
    · intro lo hi hsome t
      simp only [slabs, Option.some.injEq, Prod.mk.injEq] at hsome
      obtain ⟨rfl, rfl⟩ := hsome.symm
      simp [inBoxB, rayPointAt, loOK, hiOK]
  | cons s ss ih =>
    intro i o d ho hd hpos
    cases o with
    | nil => simp at ho
    | cons o0 os =>
      cases d with
      | nil => simp at hd
      | cons d0 ds =>
        have ihm := ih (i + 1) os ds (by simpa using ho) (by simpa using hd)
          (fun x hx => hpos x (List.mem_cons_of_mem _ hx))
        have hs1 : 1 ≤ s := hpos s (List.mem_cons_self _ _)
        have hM : (0 : ℚ) ≤ (s : ℚ) - 1 := by
          have h1 : (1 : ℚ) ≤ (s : ℚ) := by exact_mod_cast hs1
          linarith
        rcases hrec : slabs dd (i + 1) os ds ss with _ | ⟨lo, hi⟩
        · refine ⟨fun _ t => ?_, fun lo' hi' hsome => ?_⟩
          · have htail := ihm.1 hrec t
            rw [rayPointAt_cons]
            rw [Bool.eq_false_iff]
            intro habs
            rw [inBoxB_cons] at habs
            rw [habs.2] at htail
            exact Bool.noConfusion htail
          · simp only [slabs, hrec] at hsome
            exact Option.noConfusion hsome
        · by_cases hidd : i ∈ dd
          · by_cases hd0 : d0 = 0
            · by_cases hcond : (0 : ℚ) ≤ o0 ∧ o0 ≤ (s : ℚ) - 1
              · refine ⟨fun hnone => ?_, fun lo' hi' hsome t => ?_⟩
                · simp only [slabs, hrec] at hnone
                  rw [if_pos hidd, if_pos hd0, if_pos hcond] at hnone
                  exact Option.noConfusion hnone
                · simp only [slabs, hrec] at hsome
                  rw [if_pos hidd, if_pos hd0, if_pos hcond] at hsome
                  obtain ⟨rfl, rfl⟩ : lo = lo' ∧ hi = hi' := by simpa using hsome
                  have htail := ihm.2 _ _ hrec t
                  rw [rayPointAt_cons, inBoxB_cons, htail, if_pos hidd]
                  have hhead : (0 : ℚ) ≤ o0 + t * d0 ∧ o0 + t * d0 ≤ (s : ℚ) - 1 := by
                    rw [hd0]
                    simpa using hcond
                  simp [hhead]
              · refine ⟨fun _ t => ?_, fun lo' hi' hsome => ?_⟩
                · rw [rayPointAt_cons, Bool.eq_false_iff]
                  intro habs
                  rw [inBoxB_cons] at habs
                  have hax := habs.1 hidd
                  rw [if_pos hidd, hd0] at hax
                  simp only [mul_zero, add_zero] at hax
                  exact hcond hax
                · simp only [slabs, hrec] at hsome
                  rw [if_pos hidd, if_pos hd0, if_neg hcond] at hsome
                  exact Option.noConfusion hsome
            · refine ⟨fun hnone => ?_, fun lo' hi' hsome t => ?_⟩
              · simp only [slabs, hrec] at hnone
                rw [if_pos hidd, if_neg hd0] at hnone
                exact Option.noConfusion hnone
              · simp only [slabs, hrec] at hsome
                rw [if_pos hidd, if_neg hd0] at hsome
                obtain ⟨rfl, rfl⟩ :
                    pushLo lo (min ((0 - o0) / d0) (((s : ℚ) - 1 - o0) / d0)) = lo' ∧
                    pushHi hi (max ((0 - o0) / d0) (((s : ℚ) - 1 - o0) / d0)) = hi' := by
                  simpa using hsome
                have htail := ihm.2 _ _ hrec t
                have haxis := slab_axis o0 d0 ((s : ℚ) - 1) t hd0 hM
                rw [rayPointAt_cons, inBoxB_cons, htail, if_pos hidd,
                  loOK_pushLo, hiOK_pushHi]
                constructor
                · rintro ⟨hhead, hlo, hhi⟩
                  have hmm := haxis.mp (hhead hidd)
                  exact ⟨⟨hlo, hmm.1⟩, hhi, hmm.2⟩
                · rintro ⟨⟨hlo, hm⟩, hhi, hMx⟩
                  exact ⟨fun _ => haxis.mpr ⟨hm, hMx⟩, hlo, hhi⟩
          · refine ⟨fun hnone => ?_, fun lo' hi' hsome t => ?_⟩
            · simp only [slabs, hrec] at hnone
              rw [if_neg hidd] at hnone
              exact Option.noConfusion hnone
            · simp only [slabs, hrec] at hsome
              rw [if_neg hidd] at hsome
              obtain ⟨rfl, rfl⟩ : lo = lo' ∧ hi = hi' := by simpa using hsome
              have htail := ihm.2 _ _ hrec t
              rw [rayPointAt_cons, inBoxB_cons, htail]
              simp [hidd]

theorem slabs_bounded (dd : List ℕ) :
    ∀ (sh : List ℕ) (i : ℕ) (o d : Vec),
      o.length = sh.length → d.length = sh.length → hasDrive dd i d = true →
      slabs dd i o d sh = none ∨
        ∃ a b : ℚ, slabs dd i o d sh = some (some a, some b) := by
  intro sh
  induction sh with
  | nil =>
    intro i o d _ hd hdrive
    rw [List.length_nil, List.length_eq_zero] at hd
    subst hd
    simp [hasDrive] at hdrive
  | cons s ss ih =>
    intro i o d ho hd hdrive
    cases o with
    | nil => simp at ho
    | cons o0 os =>
      cases d with
      | nil => simp at hd
      | cons d0 ds =>
        rcases hrec : slabs dd (i + 1) os ds ss with _ | ⟨lo, hi⟩
        · left
          simp only [slabs, hrec]
        · by_cases hhead : i ∈ dd ∧ d0 ≠ 0
          · right
            have hres : slabs dd i (o0 :: os) (d0 :: ds) (s :: ss) =
                some (pushLo lo (min ((0 - o0) / d0) (((s : ℚ) - 1 - o0) / d0)),
                      pushHi hi (max ((0 - o0) / d0) (((s : ℚ) - 1 - o0) / d0))) := by
              simp only [slabs, hrec]
              rw [if_pos hhead.1, if_neg hhead.2]
            exact ⟨_, _, by rw [hres]; rfl⟩
          · have htaildrive : hasDrive dd (i + 1) ds = true := by
              have hun : ((decide (i ∈ dd) && !(d0 == 0)) || hasDrive dd (i + 1) ds) = true :=
                hdrive
              rcases Bool.or_eq_true_iff.mp hun with hl | hr
              · exfalso
                rcases Bool.and_eq_true_iff.mp hl with ⟨h1, h2⟩
                exact hhead ⟨of_decide_eq_true h1, by simpa using h2⟩
              · exact hr
            rcases ih (i + 1) os ds (by simpa using ho) (by simpa using hd) htaildrive
              with hn | ⟨a, b, hab⟩
            · rw [hn] at hrec
              exact Option.noConfusion hrec
            · rw [hab] at hrec
              obtain ⟨rfl, rfl⟩ : some a = lo ∧ some b = hi := by
                have := Option.some.inj hrec
                exact ⟨congrArg Prod.fst this, congrArg Prod.snd this⟩
              by_cases hidd : i ∈ dd
              · have hd0 : d0 = 0 := by
                  by_contra hne
                  exact hhead ⟨hidd, hne⟩
                by_cases hcond : (0 : ℚ) ≤ o0 ∧ o0 ≤ (s : ℚ) - 1
                · right
                  refine ⟨a, b, ?_⟩
                  simp only [slabs, hab]
                  rw [if_pos hidd, if_pos hd0, if_pos hcond]
                · left
                  simp only [slabs, hab]
                  rw [if_pos hidd, if_pos hd0, if_neg hcond]
              · right
                refine ⟨a, b, ?_⟩
                simp only [slabs, hab]
                rw [if_neg hidd]

/-- C4: `get_ray_intersections(position, view_direction, dims_displayed)`
maps the world position and direction into data coordinates by inverting
the layer's scale and translate transforms (`(w - t) / s` per axis, with
the direction scaled as `d / s`), and returns the entry and exit points
of that ray with the axis-aligned data bounding box over the displayed
axes: when the result is `some (p, q)`, the two points lie on the ray at
parameters `ta ≤ tb` and the ray is inside the box exactly for the
parameters between `ta` and `tb`; when the result is `none`, the ray
misses the box entirely.  The displayed axes `dd` are an arbitrary list
of axis indices, so the statement also covers rolled and transposed
displayed dimensions. -/
theorem ray_intersections_entry_exit (pos dir scale translate : Vec) (shape dd : List ℕ)
    (hpos : pos.length = shape.length) (hdir : dir.length = shape.length)
    (hscale : scale.length = shape.length) (htr : translate.length = shape.length)
    (hshape : ∀ s ∈ shape, 1 ≤ s)
    (hdrive : hasDrive dd 0 (invScaleDir dir scale) = true) :
    (∀ p q, getRayIntersections pos dir scale translate shape dd = some (p, q) →
      ∃ ta tb : ℚ, ta ≤ tb ∧
        p = rayPointAt dd 0 (invTransform pos translate scale) (invScaleDir dir scale) ta ∧
        q = rayPointAt dd 0 (invTransform pos translate scale) (invScaleDir dir scale) tb ∧
        ∀ t : ℚ,
          (inBoxB dd 0 (rayPointAt dd 0 (invTransform pos translate scale)
            (invScaleDir dir scale) t) shape = true ↔ ta ≤ t ∧ t ≤ tb)) ∧
    (getRayIntersections pos dir scale translate shape dd = none →
      ∀ t : ℚ,
        inBoxB dd 0 (rayPointAt dd 0 (invTransform pos translate scale)
          (invScaleDir dir scale) t) shape = false) := by
  have holen : (invTransform pos translate scale).length = shape.length := by
    rw [invTransform_length pos translate scale (hpos.trans htr.symm) (hpos.trans hscale.symm)]
    exact hpos
  have hdlen : (invScaleDir dir scale).length = shape.length := by
    rw [invScaleDir_length dir scale (hdir.trans hscale.symm)]
    exact hdir
  have hmem := slabs_mem dd shape 0 (invTransform pos translate scale)
    (invScaleDir dir scale) holen hdlen hshape
  have hbnd := slabs_bounded dd shape 0 (invTransform pos translate scale)
    (invScaleDir dir scale) holen hdlen hdrive
  constructor
  · intro p q hpq
    simp only [getRayIntersections] at hpq
    rcases hsl : slabs dd 0 (invTransform pos translate scale) (invScaleDir dir scale)
        shape with _ | ⟨lo, hi⟩
    · simp [hsl] at hpq
    · cases lo with
      | none =>
        simp [hsl] at hpq
      | some a =>
        cases hi with
        | none =>
          simp [hsl] at hpq
        | some b =>
          simp only [hsl] at hpq
          by_cases hab : a ≤ b
          · rw [if_pos hab] at hpq
            obtain ⟨rfl, rfl⟩ :
                rayPointAt dd 0 (invTransform pos translate scale)
                    (invScaleDir dir scale) a = p ∧
                  rayPointAt dd 0 (invTransform pos translate scale)
                    (invScaleDir dir scale) b = q := by
              have hinj := Option.some.inj hpq
              exact ⟨congrArg Prod.fst hinj, congrArg Prod.snd hinj⟩
            refine ⟨a, b, hab, rfl, rfl, fun t => ?_⟩
            rw [hmem.2 _ _ hsl t]
            simp [loOK, hiOK]
          · rw [if_neg hab] at hpq
            exact Option.noConfusion hpq
  · intro hnone t
    rcases hsl : slabs dd 0 (invTransform pos translate scale) (invScaleDir dir scale)
        shape with _ | ⟨lo, hi⟩
    · exact hmem.1 hsl t
    · rcases hbnd with hb | ⟨a, b, hab⟩
      · rw [hb] at hsl
        exact Option.noConfusion hsl
      · rw [hab] at hsl
        obtain ⟨rfl, rfl⟩ : some a = lo ∧ some b = hi := by
          have hinj := Option.some.inj hsl
          exact ⟨congrArg Prod.fst hinj, congrArg Prod.snd hinj⟩
        simp only [getRayIntersections] at hnone
        simp only [hab] at hnone
        by_cases hle : a ≤ b
        · rw [if_pos hle] at hnone
          exact Option.noConfusion hnone
        · rw [Bool.eq_false_iff]
          intro habs
          rw [hmem.2 _ _ hab t] at habs
          have h1 : a ≤ t := by simpa [loOK] using habs.1
          have h2 : t ≤ b := by simpa [hiOK] using habs.2
          exact hle (h1.trans h2)

/-- Witness for C4 at the concrete configuration of the cursor-ray test:
a 4D layer with scale `(1, 1, 2, 1)`, translate `(0, 5, 5, 5)`, shape
`(5, 20, 20, 20)`, displayed axes `[1, 2, 3]`, a world click at
`[1, 10, 27, 10]` and view direction `[0, 1, 0, 0]`; the computed ray
enters at `[1, 0, 11, 5]` and leaves at `[1, 19, 11, 5]`. -/
theorem ray_intersections_entry_exit_witness :
    (∀ s ∈ [5, 20, 20, 20], 1 ≤ s) ∧
    hasDrive [1, 2, 3] 0 (invScaleDir [0, 1, 0, 0] [1, 1, 2, 1]) = true ∧
    getRayIntersections [1, 10, 27, 10] [0, 1, 0, 0] [1, 1, 2, 1] [0, 5, 5, 5]
      [5, 20, 20, 20] [1, 2, 3] = some ([1, 0, 11, 5], [1, 19, 11, 5]) ∧
    ((∀ p q, getRayIntersections [1, 10, 27, 10] [0, 1, 0, 0] [1, 1, 2, 1] [0, 5, 5, 5]
        [5, 20, 20, 20] [1, 2, 3] = some (p, q) →
      ∃ ta tb : ℚ, ta ≤ tb ∧
        p = rayPointAt [1, 2, 3] 0
          (invTransform [1, 10, 27, 10] [0, 5, 5, 5] [1, 1, 2, 1])
          (invScaleDir [0, 1, 0, 0] [1, 1, 2, 1]) ta ∧
        q = rayPointAt [1, 2, 3] 0
          (invTransform [1, 10, 27, 10] [0, 5, 5, 5] [1, 1, 2, 1])
          (invScaleDir [0, 1, 0, 0] [1, 1, 2, 1]) tb ∧
        ∀ t : ℚ,
          (inBoxB [1, 2, 3] 0 (rayPointAt [1, 2, 3] 0
            (invTransform [1, 10, 27, 10] [0, 5, 5, 5] [1, 1, 2, 1])
            (invScaleDir [0, 1, 0, 0] [1, 1, 2, 1]) t) [5, 20, 20, 20] = true ↔
              ta ≤ t ∧ t ≤ tb)) ∧
     (getRayIntersections [1, 10, 27, 10] [0, 1, 0, 0] [1, 1, 2, 1] [0, 5, 5, 5]
        [5, 20, 20, 20] [1, 2, 3] = none →
      ∀ t : ℚ,
        inBoxB [1, 2, 3] 0 (rayPointAt [1, 2, 3] 0
          (invTransform [1, 10, 27, 10] [0, 5, 5, 5] [1, 1, 2, 1])
          (invScaleDir [0, 1, 0, 0] [1, 1, 2, 1]) t) [5, 20, 20, 20] = false)) :=
  ⟨by decide, by norm_num [invScaleDir, hasDrive],
    by norm_num [getRayIntersections, invTransform, invScaleDir, slabs, pushLo, pushHi,
      rayPointAt],
    ray_intersections_entry_exit [1, 10, 27, 10] [0, 1, 0, 0] [1, 1, 2, 1] [0, 5, 5, 5]
      [5, 20, 20, 20] [1, 2, 3] rfl rfl rfl rfl (by decide)
      (by norm_num [invScaleDir, hasDrive])⟩

/-! ## Labels layer construction and data validation

Modelled from the spec: the Labels layer constructor and `data` setter
are not in the provided sources.  The spec describes loading
multi-dimensional (2D to 5D) integer label arrays, single-scale or
multiscale; floating-point data is rejected with a `TypeError` and
boolean data is converted to an integer dtype. -/

/-- The dtype classes relevant to Labels data validation. -/
inductive DKind where
  | intK
  | boolK
  | floatK
deriving DecidableEq

/-- An n-dimensional array: a dtype class, a shape and the values. -/
structure NDArr where
  dk : DKind
  shape : List ℕ
  vals : Pt → ℤ

/-- Labels input data: a single array or a multiscale list of levels. -/
inductive LabelsInput where
  | single (a : NDArr)
  | multi (levels : List NDArr)

/-- Modelled from the spec: dtype validation of one array.  Float dtypes
raise `TypeError` (the `Except.error` case); booleans are converted to an
integer dtype; integer dtypes pass through unchanged. -/
def ensureIntLabels (a : NDArr) : Except String NDArr :=
  match a.dk with
  | .floatK => .error "only integer types are supported for Labels layers"
  | .boolK => .ok { a with dk := .intK }
  | .intK => .ok a

/-- Validate each multiscale level, stopping at the first error. -/
def mapExcept (f : NDArr → Except String NDArr) : List NDArr → Except String (List NDArr)
  | [] => .ok []
  | a :: as =>
    match f a with
    | .error e => .error e
    | .ok b =>
      match mapExcept f as with
      | .error e => .error e
      | .ok bs => .ok (b :: bs)

/-- Validate a Labels input. -/
def checkInput : LabelsInput → Except String LabelsInput
  | .single a => (ensureIntLabels a).map .single
  | .multi ls => (mapExcept ensureIntLabels ls).map .multi

/-- The shape of a Labels input: for multiscale data, the top level of
the pyramid. -/
def inputShape : LabelsInput → List ℕ
  | .single a => a.shape
  | .multi [] => []
  | .multi (a :: _) => a.shape

/-- The Labels layer bookkeeping derived from its data: the validated
input, the dimensionality and the upper corner of the data extent. -/
structure LabelsLayer where
  input : LabelsInput
  ndim : ℕ
  extentHigh : List ℤ

/-- Modelled from the spec: the Labels constructor.  Validates the data,
then derives `ndim` and the data extent from the shape. -/
def mkLabels (inp : LabelsInput) : Except String LabelsLayer :=
  (checkInput inp).map fun d =>
    { input := d
      ndim := (inputShape d).length
      extentHigh := (inputShape d).map fun s => (s : ℤ) - 1 }

/-- Modelled from the spec: assigning to `layer.data` revalidates and
rebuilds the derived state; on error the assignment raises and the layer
is left unchanged (the `Except.error` case returns no new layer). -/
def setData (_ : LabelsLayer) (inp : LabelsInput) : Except String LabelsLayer :=
  mkLabels inp

theorem checkInput_single (a : NDArr) :
    checkInput (.single a) = (ensureIntLabels a).map .single := rfl

theorem checkInput_multi (ls : List NDArr) :
    checkInput (.multi ls) = (mapExcept ensureIntLabels ls).map .multi := rfl

theorem ensureIntLabels_int (a : NDArr) (h : a.dk = DKind.intK) :
    ensureIntLabels a = .ok a := by
  unfold ensureIntLabels
  rw [h]

theorem ensureIntLabels_float (a : NDArr) (h : a.dk = DKind.floatK) :
    ensureIntLabels a = .error "only integer types are supported for Labels layers" := by
  unfold ensureIntLabels
  rw [h]

theorem ensureIntLabels_bool (a : NDArr) (h : a.dk = DKind.boolK) :
    ensureIntLabels a = .ok { a with dk := DKind.intK } := by
  unfold ensureIntLabels
  rw [h]

/-- C5: constructing a Labels layer from an n-dimensional integer array
with `2 <= n <= 5` yields `ndim = n`, `data` equal to the input and
`extent.data[1] + 1` equal to the array's shape, and assigning a new
integer array of different shape or dimensionality updates all three
accordingly. -/
theorem labels_ndim_data_extent (a : NDArr) (hint : a.dk = DKind.intK)
    (h2 : 2 ≤ a.shape.length) (h5 : a.shape.length ≤ 5) :
    ∃ l : LabelsLayer, mkLabels (.single a) = .ok l ∧
      l.ndim = a.shape.length ∧ l.input = .single a ∧
      l.extentHigh.map (fun z => z + 1) = a.shape.map (fun s => (s : ℤ)) ∧
      ∀ b : NDArr, b.dk = DKind.intK →
        ∃ l2 : LabelsLayer, setData l (.single b) = .ok l2 ∧
          l2.ndim = b.shape.length ∧ l2.input = .single b ∧
          l2.extentHigh.map (fun z => z + 1) = b.shape.map (fun s => (s : ℤ)) := by
  have hmk : ∀ c : NDArr, c.dk = DKind.intK →
      mkLabels (.single c) = .ok
        { input := .single c, ndim := c.shape.length,
          extentHigh := c.shape.map fun s => (s : ℤ) - 1 } := by
    intro c hc
    unfold mkLabels
    rw [checkInput_single, ensureIntLabels_int c hc]
    rfl
  have hext : ∀ c : NDArr,
      (c.shape.map fun s => (s : ℤ) - 1).map (fun z => z + 1) =
        c.shape.map fun s => (s : ℤ) := by
    intro c
    rw [List.map_map]
    apply List.map_congr_left
    intro s _
    simp
  refine ⟨_, hmk a hint, rfl, rfl, hext a, ?_⟩
  intro b hb
  exact ⟨_, hmk b hb, rfl, rfl, hext b⟩

/-- Witness for C5 at a concrete input: a 2D integer array of shape
`10 x 15`. -/
theorem labels_ndim_data_extent_witness :
    (NDArr.mk DKind.intK [10, 15] fun _ => 0).dk = DKind.intK ∧
    2 ≤ (NDArr.mk DKind.intK [10, 15] fun _ => 0).shape.length ∧
    (NDArr.mk DKind.intK [10, 15] fun _ => 0).shape.length ≤ 5 ∧
    ∃ l : LabelsLayer,
      mkLabels (.single (NDArr.mk DKind.intK [10, 15] fun _ => 0)) = .ok l ∧
      l.ndim = (NDArr.mk DKind.intK [10, 15] fun _ => 0).shape.length ∧
      l.input = .single (NDArr.mk DKind.intK [10, 15] fun _ => 0) ∧
      l.extentHigh.map (fun z => z + 1) =
        (NDArr.mk DKind.intK [10, 15] fun _ => 0).shape.map (fun s => (s : ℤ)) ∧
      ∀ b : NDArr, b.dk = DKind.intK →
        ∃ l2 : LabelsLayer,
          setData l (.single b) = .ok l2 ∧ l2.ndim = b.shape.length ∧
          l2.input = .single b ∧
          l2.extentHigh.map (fun z => z + 1) = b.shape.map (fun s => (s : ℤ)) :=
  ⟨rfl, by decide, by decide,
    labels_ndim_data_extent (NDArr.mk DKind.intK [10, 15] fun _ => 0) rfl
      (by decide) (by decide)⟩

theorem mapExcept_error_of_float (ls : List NDArr) (a : NDArr) (ha : a ∈ ls)
    (hf : a.dk = DKind.floatK) :
    ∃ msg, mapExcept ensureIntLabels ls = .error msg := by
  induction ls with
  | nil => cases ha
  | cons x xs ih =>
    rcases List.mem_cons.mp ha with rfl | hmem
    · refine ⟨"only integer types are supported for Labels layers", ?_⟩
      unfold mapExcept
      rw [ensureIntLabels_float a hf]
    · cases hx : ensureIntLabels x with
      | error e =>
        refine ⟨e, ?_⟩
        unfold mapExcept
        rw [hx]
      | ok b =>
        obtain ⟨msg, hmsg⟩ := ih hmem
        refine ⟨msg, ?_⟩
        unfold mapExcept
        rw [hx, hmsg]

theorem mapExcept_ok_of_nofloat (ls : List NDArr) (h : ∀ a ∈ ls, a.dk ≠ DKind.floatK) :
    mapExcept ensureIntLabels ls = .ok (ls.map fun a => { a with dk := DKind.intK }) := by
  induction ls with
  | nil => rfl
  | cons x xs ih =>
    have hx : ensureIntLabels x = .ok { x with dk := DKind.intK } := by
      cases hdk : x.dk with
      | floatK => exact absurd hdk (h x (List.mem_cons_self _ _))
      | boolK => exact ensureIntLabels_bool x hdk
      | intK =>
        rw [ensureIntLabels_int x hdk]
        cases x
        simp_all
    unfold mapExcept
    rw [hx, ih fun a ha => h a (List.mem_cons_of_mem _ ha)]
    rfl

/-- C8: constructing a Labels layer from floating-point data, single or
multiscale, fails with a `TypeError` (so a `data` assignment of floats
leaves the layer unchanged), while boolean data is accepted and converted
to an integer dtype. -/
theorem labels_dtype_validation :
    (∀ a : NDArr, a.dk = DKind.floatK →
      ∃ msg, mkLabels (.single a) = .error msg) ∧
    (∀ (ls : List NDArr) (a : NDArr), a ∈ ls → a.dk = DKind.floatK →
      ∃ msg, mkLabels (.multi ls) = .error msg) ∧
    (∀ (l : LabelsLayer) (a : NDArr), a.dk = DKind.floatK →
      ∃ msg, setData l (.single a) = .error msg) ∧
    (∀ a : NDArr, a.dk = DKind.boolK →
      ∃ l : LabelsLayer, mkLabels (.single a) = .ok l ∧
        l.input = .single { a with dk := DKind.intK }) ∧
    (∀ ls : List NDArr, (∀ a ∈ ls, a.dk = DKind.boolK) →
      ∃ l : LabelsLayer, mkLabels (.multi ls) = .ok l ∧
        l.input = .multi (ls.map fun a => { a with dk := DKind.intK })) := by
  have hfloat : ∀ a : NDArr, a.dk = DKind.floatK →
      ∃ msg, mkLabels (.single a) = .error msg := by
    intro a hf
    refine ⟨"only integer types are supported for Labels layers", ?_⟩
    unfold mkLabels
    rw [checkInput_single, ensureIntLabels_float a hf]
    rfl
  refine ⟨hfloat, ?_, ?_, ?_, ?_⟩
  · intro ls a ha hf
    obtain ⟨msg, hmsg⟩ := mapExcept_error_of_float ls a ha hf
    refine ⟨msg, ?_⟩
    unfold mkLabels
    rw [checkInput_multi, hmsg]
    rfl
  · intro l a hf
    exact hfloat a hf
  · intro a hb
    refine ⟨{ input := .single { a with dk := DKind.intK }, ndim := a.shape.length,
              extentHigh := a.shape.map fun s => (s : ℤ) - 1 }, ?_, rfl⟩
    unfold mkLabels
    rw [checkInput_single, ensureIntLabels_bool a hb]
    rfl
  · intro ls hb
    refine ⟨{ input := .multi (ls.map fun a => { a with dk := DKind.intK }),
              ndim := (inputShape (.multi (ls.map fun a =>
                { a with dk := DKind.intK }))).length,
              extentHigh := (inputShape (.multi (ls.map fun a =>
                { a with dk := DKind.intK }))).map fun s => (s : ℤ) - 1 }, ?_, rfl⟩
    unfold mkLabels
    rw [checkInput_multi, mapExcept_ok_of_nofloat ls fun a ha => by
      rw [hb a ha]
      intro hcontra
      cases hcontra]
    rfl

/-- Witness for C8 at concrete inputs: a float array is rejected, a bool
array is converted. -/
theorem labels_dtype_validation_witness :
    ((NDArr.mk DKind.floatK [10, 10] fun _ => 0).dk = DKind.floatK ∧
      ∃ msg, mkLabels (.single (NDArr.mk DKind.floatK [10, 10] fun _ => 0)) =
        .error msg) ∧
    ((NDArr.mk DKind.boolK [10, 10] fun _ => 0).dk = DKind.boolK ∧
      ∃ l : LabelsLayer,
        mkLabels (.single (NDArr.mk DKind.boolK [10, 10] fun _ => 0)) = .ok l ∧
        l.input = .single { NDArr.mk DKind.boolK [10, 10] (fun _ => 0) with
          dk := DKind.intK }) :=
  ⟨⟨rfl, labels_dtype_validation.1 (NDArr.mk DKind.floatK [10, 10] fun _ => 0) rfl⟩,
   ⟨rfl, labels_dtype_validation.2.2.2.1 (NDArr.mk DKind.boolK [10, 10] fun _ => 0) rfl⟩⟩

/-! ## Layer mode, editability and interactivity

Modelled from the spec: the Labels layer mode handling is not in the
provided sources.  The layer has an interaction mode (`pan_zoom` or one
of the editing modes `paint`, `fill`, `pick`), an `editable` flag and an
`interactive` flag.  Setting an editing mode is only possible while the
layer is editable; making the layer non-editable forces the mode back to
`pan_zoom`; entering an editing mode turns `interactive` off and
`pan_zoom` turns it back on. -/

/-- The interaction modes of a Labels layer. -/
inductive LMode where
  | panZoom
  | paintM
  | fillM
  | pickM
deriving DecidableEq

/-- The mode-related state of a layer. -/
structure ModeState where
  mode : LMode
  editable : Bool
  interactive : Bool

/-- The initial state: `pan_zoom`, editable, interactive. -/
def initMode : ModeState :=
  { mode := LMode.panZoom, editable := true, interactive := true }

/-- Set the mode: a non-editable layer is forced to `pan_zoom`, and
`interactive` tracks whether the resulting mode is `pan_zoom`. -/
def setMode (m : LMode) (st : ModeState) : ModeState :=
  let m2 := if st.editable then m else LMode.panZoom
  { st with mode := m2, interactive := m2 == LMode.panZoom }

/-- Set the editable flag: turning it off also forces the mode back to
`pan_zoom`. -/
def setEditable (b : Bool) (st : ModeState) : ModeState :=
  if b then { st with editable := true }
  else setMode LMode.panZoom { st with editable := false }

/-- The operations a user can perform on the mode state. -/
inductive LayerOp where
  | opMode (m : LMode)
  | opEditable (b : Bool)

/-- Run a sequence of operations from a state. -/
def applyOps (ops : List LayerOp) (st : ModeState) : ModeState :=
  ops.foldl
    (fun s op =>
      match op with
      | .opMode m => setMode m s
      | .opEditable b => setEditable b s)
    st

theorem applyOps_invariant (ops : List LayerOp) :
    ∀ st : ModeState, (st.editable = false → st.mode = LMode.panZoom) →
      ((applyOps ops st).editable = false → (applyOps ops st).mode = LMode.panZoom) := by
  induction ops with
  | nil => exact fun st h => h
  | cons op rest ih =>
    intro st hst
    cases op with
    | opMode m =>
      refine ih (setMode m st) ?_
      intro hed
      unfold setMode at hed ⊢
      cases hedit : st.editable with
      | true => simp [hedit] at hed
      | false => simp [hedit]
    | opEditable b =>
      refine ih (setEditable b st) ?_
      intro hed
      cases b with
      | true => simp [setEditable] at hed
      | false => simp [setEditable, setMode]

/-- C9: an editing mode is active only while the layer is editable:
along any sequence of mode and editability changes from the initial
state, a non-editable layer is always in `pan_zoom`; setting
`editable = False` forces the mode back to `pan_zoom`; entering an
editing mode (any mode other than `pan_zoom`) on an editable layer sets
`interactive` to `False`, and entering `pan_zoom` sets it to `True`. -/
theorem mode_editable_invariant :
    (∀ ops : List LayerOp, (applyOps ops initMode).editable = false →
      (applyOps ops initMode).mode = LMode.panZoom) ∧
    (∀ st : ModeState, (setEditable false st).mode = LMode.panZoom) ∧
    (∀ (st : ModeState) (m : LMode), st.editable = true → m ≠ LMode.panZoom →
      (setMode m st).mode = m ∧ (setMode m st).interactive = false) ∧
    (∀ st : ModeState, (setMode LMode.panZoom st).interactive = true) := by
  refine ⟨?_, ?_, ?_, ?_⟩
  · intro ops
    exact applyOps_invariant ops initMode (fun h => by cases h)
  · intro st
    cases hedit : st.editable <;> simp [setEditable, setMode]
  · intro st m hed hm
    have hbeq : (m == LMode.panZoom) = false := by
      simpa using hm
    constructor <;> simp [setMode, hed, hbeq]
  · intro st
    cases hedit : st.editable <;> simp [setMode, hedit]

/-- Witness for C9 at concrete inputs: from the initial state, entering
`paint` and then making the layer non-editable leaves it in `pan_zoom`,
and entering `paint` on an editable layer turns `interactive` off. -/
theorem mode_editable_invariant_witness :
    ((applyOps [LayerOp.opMode LMode.paintM, LayerOp.opEditable false] initMode).editable =
        false →
      (applyOps [LayerOp.opMode LMode.paintM, LayerOp.opEditable false] initMode).mode =
        LMode.panZoom) ∧
    initMode.editable = true ∧ LMode.paintM ≠ LMode.panZoom ∧
    (setMode LMode.paintM initMode).mode = LMode.paintM ∧
    (setMode LMode.paintM initMode).interactive = false :=
  ⟨mode_editable_invariant.1 [LayerOp.opMode LMode.paintM, LayerOp.opEditable false],
   rfl, by decide,
   (mode_editable_invariant.2.2.1 initMode LMode.paintM rfl (by decide)).1,
   (mode_editable_invariant.2.2.1 initMode LMode.paintM rfl (by decide)).2⟩

/-! ## Stub generation (`napari/utils/stubgen.py`)

Embedded from the source.  A module is abstracted as its `__all__`
attribute (if any), its ordered attribute dictionary with a callability
flag per attribute, and its source file path.  The text of an individual
object's stub (`generate_function_stub` / `generate_class_stubs` perform
runtime introspection) is abstracted as an arbitrary function from the
object's name to its stub text; the logic of `generate_module_stub`
itself — which names get stubbed, when the exports are guessed with a
warning, and where the result is saved — is embedded faithfully. -/

/-- One module attribute: its name and whether it is callable. -/
structure PyAttr where
  name : String
  isCallable : Bool
deriving DecidableEq

/-- A Python module as seen by `stubgen`. -/
structure PyModule where
  allNames : Option (List String)
  attrs : List PyAttr
  modName : String
  srcFile : String

/-- Python's `k.startswith("_")`: the first character is an underscore. -/
def startsWithUnderscore (s : String) : Bool :=
  match s.data with
  | [] => false
  | c :: _ => c == '_'

/-- List prefix test for characters. -/
def isPrefixL : List Char → List Char → Bool
  | [], _ => true
  | _ :: _, [] => false
  | p :: ps, c :: cs => p == c && isPrefixL ps cs

/-- Fuel-driven kernel of Python's `str.replace`: replace every
non-overlapping occurrence of `p :: ps`, left to right. -/
def replaceFuel (p : Char) (ps rep : List Char) : ℕ → List Char → List Char
  | 0, l => l
  | _ + 1, [] => []
  | fuel + 1, c :: cs =>
    if isPrefixL (p :: ps) (c :: cs) then
      rep ++ replaceFuel p ps rep fuel (List.drop ps.length cs)
    else c :: replaceFuel p ps rep fuel cs

/-- Python's `s.replace(pat, rep)` for a non-empty pattern. -/
def pyReplace (s pat rep : String) : String :=
  match pat.data with
  | [] => s
  | p :: ps => String.mk (replaceFuel p ps rep.data s.data.length s.data)

/-- `_guess_exports(module, exclude)`: the names of the module attributes
that are callable, do not start with an underscore and are not in
`exclude`. -/
def guessExports (m : PyModule) (exclude : List String) : List String :=
  (m.attrs.filter fun a =>
    a.isCallable && !(startsWithUnderscore a.name) && !(exclude.contains a.name)).map
    fun a => a.name

/-- The result of `generate_module_stub`: the per-name stub entries, the
guessed-exports warning flag, and the path written when saving. -/
structure StubResult where
  entries : List String
  warned : Bool
  savedTo : Option String

/-- `generate_module_stub(module, save)`.  `names = getattr(module,
'__all__', None)` followed by `if not names:` means both a missing and an
empty `__all__` fall back to `_guess_exports` with a warning; one stub
entry is produced per name; with `save=True` the stub is written to the
module's source path with `.py` replaced by `.pyi`. -/
def generateModuleStub (stubOf : String → String) (m : PyModule) (save : Bool) :
    StubResult :=
  let names0 := m.allNames.getD []
  let useGuess := names0.isEmpty
  let names := if useGuess then guessExports m [] else names0
  { entries := names.map stubOf
    warned := useGuess
    savedTo := if save then some (pyReplace m.srcFile (".py") (".pyi")) else none }

/-- C6: `generate_module_stub(module)` produces one stub entry per name
in the module's `__all__`; when `__all__` is absent or empty it instead
stubs exactly the attributes that are callable, do not start with an
underscore and are not excluded, and warns that exports are being
guessed; with `save=True` the stub is written to the module's source path
with `.py` replaced by `.pyi`. -/
theorem generate_module_stub_spec (stubOf : String → String) (m : PyModule) (save : Bool) :
    (∀ l : List String, m.allNames = some l → l ≠ [] →
      (generateModuleStub stubOf m save).entries = l.map stubOf ∧
      (generateModuleStub stubOf m save).warned = false) ∧
    ((m.allNames = none ∨ m.allNames = some []) →
      (generateModuleStub stubOf m save).entries = (guessExports m []).map stubOf ∧
      (generateModuleStub stubOf m save).warned = true) ∧
    (∀ (exclude : List String) (k : String),
      k ∈ guessExports m exclude ↔
        ∃ a ∈ m.attrs, a.name = k ∧ a.isCallable = true ∧
          startsWithUnderscore a.name = false ∧ k ∉ exclude) ∧
    (save = true →
      (generateModuleStub stubOf m save).savedTo =
        some (pyReplace m.srcFile (".py") (".pyi"))) ∧
    (save = false → (generateModuleStub stubOf m save).savedTo = none) := by
  refine ⟨?_, ?_, ?_, ?_, ?_⟩
  · intro l hl hne
    have hemp : l.isEmpty = false := by
      cases l with
      | nil => exact absurd rfl hne
      | cons x xs => rfl
    constructor <;> simp [generateModuleStub, hl, hemp]
  · intro hcase
    rcases hcase with hnone | hempty
    · constructor <;> simp [generateModuleStub, hnone]
    · constructor <;> simp [generateModuleStub, hempty]
  · intro exclude k
    simp only [guessExports, List.mem_map, List.mem_filter, Bool.and_eq_true,
      Bool.not_eq_true']
    constructor
    · rintro ⟨a, ⟨hmem, ⟨hcall, hunder⟩, hexc⟩, rfl⟩
      refine ⟨a, hmem, rfl, hcall, hunder, ?_⟩
      simpa using hexc
    · rintro ⟨a, hmem, rfl, hcall, hunder, hexc⟩
      refine ⟨a, ⟨hmem, ⟨hcall, hunder⟩, ?_⟩, rfl⟩
      simpa using hexc
  · intro hsave
    simp [generateModuleStub, hsave]
  · intro hsave
    simp [generateModuleStub, hsave]

/-- Witness for C6 at a concrete module: `__all__` is absent, the
attributes are a public callable `foo`, a private callable `_bar` and a
non-callable `baz`; the guessed exports are exactly `[foo]`, the warning
fires, and saving targets `napari/view_layers.pyi`. -/
theorem generate_module_stub_spec_witness :
    ((PyModule.mk none [PyAttr.mk ("foo") true, PyAttr.mk ("_bar") true,
        PyAttr.mk ("baz") false] ("napari.view_layers")
        ("napari/view_layers.py")).allNames = none ∨
      (PyModule.mk none [PyAttr.mk ("foo") true, PyAttr.mk ("_bar") true,
        PyAttr.mk ("baz") false] ("napari.view_layers")
        ("napari/view_layers.py")).allNames = some []) ∧
    guessExports (PyModule.mk none [PyAttr.mk ("foo") true, PyAttr.mk ("_bar") true,
      PyAttr.mk ("baz") false] ("napari.view_layers") ("napari/view_layers.py")) [] =
      [("foo")] ∧
    pyReplace ("napari/view_layers.py") (".py") (".pyi") = "napari/view_layers.pyi" ∧
    ∀ save : Bool,
      (generateModuleStub (fun n => n) (PyModule.mk none [PyAttr.mk ("foo") true,
          PyAttr.mk ("_bar") true, PyAttr.mk ("baz") false] ("napari.view_layers")
          ("napari/view_layers.py")) save).entries = [("foo")] ∧
      (generateModuleStub (fun n => n) (PyModule.mk none [PyAttr.mk ("foo") true,
          PyAttr.mk ("_bar") true, PyAttr.mk ("baz") false] ("napari.view_layers")
          ("napari/view_layers.py")) save).warned = true :=
  ⟨Or.inl rfl, by decide, by decide, fun save =>
    ((generate_module_stub_spec (fun n => n) (PyModule.mk none [PyAttr.mk ("foo") true,
      PyAttr.mk ("_bar") true, PyAttr.mk ("baz") false] ("napari.view_layers")
      ("napari/view_layers.py")) save).2.1 (Or.inl rfl))⟩

/-! ## Preferences dialog (`napari/_qt/dialogs/preferences_dialog.py`)

Embedded from the source.  The settings store maps a page name and a
setting name to a value; each dialog page records, per setting, the value
at dialog opening (`_values_orig_dict`), a working copy (`_values_dict`)
and the set of settings changed during the session
(`_setting_changed_dict`).  Python dictionaries are embedded as
association lists with unique keys; `dictSet` overwrites the first
occurrence in place or appends, and `dictPop` removes the key, exactly
like `dict.__setitem__` and `dict.pop`. -/

/-- `d[k]` as an option. -/
def dictGet {V : Type} (d : List (String × V)) (k : String) : Option V :=
  (d.find? fun e => e.1 == k).map fun e => e.2

/-- `d[k] = v`: overwrite in place, or append when absent. -/
def dictSet {V : Type} : List (String × V) → String → V → List (String × V)
  | [], k, v => [(k, v)]
  | e :: es, k, v => if e.1 == k then (k, v) :: es else e :: dictSet es k v

/-- `d.pop(k)`. -/
def dictPop {V : Type} (d : List (String × V)) (k : String) : List (String × V) :=
  d.filter fun e => !(e.1 == k)

theorem dictGet_dictSet {V : Type} (d : List (String × V)) (k : String) (v : V)
    (n : String) :
    dictGet (dictSet d k v) n = if n = k then some v else dictGet d n := by
  induction d with
  | nil =>
    by_cases hnk : n = k
    · simp [dictGet, dictSet, hnk]
    · simp [dictGet, dictSet, hnk, Ne.symm hnk]
  | cons e es ih =>
    by_cases hek : e.1 = k
    · by_cases hnk : n = k
      · simp [dictGet, dictSet, hek, hnk]
      · simp [dictGet, dictSet, hek, hnk, Ne.symm hnk]
    · have heb : (e.1 == k) = false := beq_false_of_ne hek
      by_cases hen : e.1 = n
      · have henb : (e.1 == n) = true := beq_iff_eq.mpr hen
        have hnk : ¬ n = k := by
          rw [← hen]
          exact fun h => hek h
        simp [dictGet, dictSet, heb, henb, hnk]
      · have henb : (e.1 == n) = false := beq_false_of_ne hen
        simp only [dictSet, heb, if_false, Bool.false_eq_true]
        simp only [dictGet, List.find?, henb]
        rw [← dictGet, ← dictGet, ih]

theorem dictGet_dictPop {V : Type} (d : List (String × V)) (k : String) (n : String) :
    dictGet (dictPop d k) n = if n = k then none else dictGet d n := by
  induction d with
  | nil => simp [dictGet, dictPop]
  | cons e es ih =>
    by_cases hek : e.1 = k
    · have heb : (e.1 == k) = true := beq_iff_eq.mpr hek
      have hstep : dictPop (e :: es) k = dictPop es k := by
        simp [dictPop, List.filter, heb]
      rw [hstep, ih]
      by_cases hnk : n = k
      · simp [hnk]
      · have hen : (e.1 == n) = false := by
          rw [hek]
          exact beq_false_of_ne (Ne.symm hnk)
        simp [hnk, dictGet, List.find?, hen]
    · have heb : (e.1 == k) = false := beq_false_of_ne hek
      have hstep : dictPop (e :: es) k = e :: dictPop es k := by
        simp [dictPop, List.filter, heb]
      rw [hstep]
      by_cases hen : e.1 = n
      · have henb : (e.1 == n) = true := beq_iff_eq.mpr hen
        have hnk : ¬ n = k := fun h => hek (hen.symm ▸ h)
        simp [dictGet, List.find?, henb, hnk]
      · have henb : (e.1 == n) = false := beq_false_of_ne hen
        simp only [dictGet, List.find?, henb]
        rw [← dictGet, ← dictGet, ih]

theorem dictGet_eq_none_of_not_mem {V : Type} (d : List (String × V)) (n : String)
    (h : n ∉ d.map Prod.fst) : dictGet d n = none := by
  induction d with
  | nil => rfl
  | cons e es ih =>
    have hen : (e.1 == n) = false := by
      refine beq_false_of_ne fun hc => ?_
      exact h (List.mem_map.mpr ⟨e, List.mem_cons_self _ _, hc⟩)
    simp only [dictGet, List.find?, hen]
    exact ih fun hc => h (List.mem_cons_of_mem _ (by simpa using hc))

theorem mem_keys_dictSet {V : Type} (d : List (String × V)) (k : String) (v : V)
    (n : String) (h : n ∈ (dictSet d k v).map Prod.fst) :
    n = k ∨ n ∈ d.map Prod.fst := by
  induction d with
  | nil =>
    simp [dictSet] at h
    exact Or.inl h
  | cons e es ih =>
    by_cases hek : e.1 = k
    · have heb : (e.1 == k) = true := beq_iff_eq.mpr hek
      simp only [dictSet, heb, if_true, List.map_cons, List.mem_cons] at h
      rcases h with rfl | h
      · exact Or.inl rfl
      · exact Or.inr (List.mem_cons_of_mem _ h)
    · have heb : (e.1 == k) = false := beq_false_of_ne hek
      simp only [dictSet, heb, Bool.false_eq_true, if_false, List.map_cons,
        List.mem_cons] at h
      rcases h with rfl | h
      · exact Or.inr (List.mem_cons_self _ _)
      · rcases ih h with hk | hmem
        · exact Or.inl hk
        · exact Or.inr (List.mem_cons_of_mem _ hmem)

theorem keys_dictSet_nodup {V : Type} (d : List (String × V)) (k : String) (v : V)
    (h : (d.map Prod.fst).Nodup) : ((dictSet d k v).map Prod.fst).Nodup := by
  induction d with
  | nil => simp [dictSet]
  | cons e es ih =>
    rw [List.map_cons, List.nodup_cons] at h
    by_cases hek : e.1 = k
    · have heb : (e.1 == k) = true := beq_iff_eq.mpr hek
      simp only [dictSet, heb, if_true, List.map_cons, List.nodup_cons]
      exact ⟨by rw [← hek]; exact h.1, h.2⟩
    · have heb : (e.1 == k) = false := beq_false_of_ne hek
      simp only [dictSet, heb, Bool.false_eq_true, if_false, List.map_cons,
        List.nodup_cons]
      refine ⟨fun hc => ?_, ih h.2⟩
      rcases mem_keys_dictSet es k v e.1 hc with hk | hmem
      · exact hek hk
      · exact h.1 hmem

theorem keys_dictPop_nodup {V : Type} (d : List (String × V)) (k : String)
    (h : (d.map Prod.fst).Nodup) : ((dictPop d k).map Prod.fst).Nodup := by
  refine List.Nodup.sublist ?_ h
  exact List.Sublist.map Prod.fst (List.filter_sublist d)

/-- `PreferencesDialog._values_changed(page, new_dict, old_dict)`: for
each `(name, value)` in `new_dict`, record `value` in the page's changed
dict when it differs from `old_dict[name]`, otherwise drop any stale
entry for `name`.  A missing `old_dict` key (a `KeyError` in Python)
counts as different. -/
def valuesChanged {V : Type} [DecidableEq V] (newD oldD ch0 : List (String × V)) :
    List (String × V) :=
  newD.foldl
    (fun ch e =>
      if some e.2 ≠ dictGet oldD e.1 then dictSet ch e.1 e.2
      else if (dictGet ch e.1).isSome then dictPop ch e.1
      else ch)
    ch0

/-- `setattr(getattr(settings, page), name, value)`. -/
def setSetting {V : Type} (f : String → String → V) (p n : String) (v : V) :
    String → String → V :=
  Function.update f p (Function.update (f p) n v)

/-- The `for setting_name, value in different_values.items(): setattr ...`
loop of `check_differences`. -/
def applySettings {V : Type} (f : String → String → V) (p : String)
    (ch : List (String × V)) : String → String → V :=
  ch.foldl (fun g e => setSetting g p e.1 e.2) f

/-- The dialog state: the settings store, and the per-page original
values, working values and changed-settings dictionaries. -/
structure PrefState (V : Type) where
  settings : String → String → V
  valuesOrig : String → List (String × V)
  valuesDict : String → List (String × V)
  changed : String → List (String × V)

/-- `PreferencesDialog.check_differences(new_dict, old_dict)` on the page
`page`: update the page's changed dict via `_values_changed`, and when it
is non-empty write every changed value into the settings store and
replace the page's working values with `new_dict`. -/
def checkDifferences {V : Type} [DecidableEq V] (page : String)
    (newD oldD : List (String × V)) (st : PrefState V) : PrefState V :=
  let ch2 := valuesChanged newD oldD (st.changed page)
  if 0 < ch2.length then
    { st with
      settings := applySettings st.settings page ch2
      valuesDict := Function.update st.valuesDict page newD
      changed := Function.update st.changed page ch2 }
  else
    { st with changed := Function.update st.changed page ch2 }

/-- `get_page_dict` re-reads the page's exposed values from the current
settings store. -/
def pageValues {V : Type} (st : PrefState V) (names : String → List String)
    (p : String) : List (String × V) :=
  (names p).map fun n => (n, st.settings p n)

/-- `PreferencesDialog.on_click_cancel`: for every page shown in the
dialog, compare the values recorded at opening with the current settings
values and write the differences back. -/
def onClickCancel {V : Type} [DecidableEq V] (pages : List String)
    (names : String → List String) (st : PrefState V) : PrefState V :=
  pages.foldl (fun s p => checkDifferences p (s.valuesOrig p) (pageValues s names p) s) st

theorem dictGet_mapNames {V : Type} (ns : List String) (f : String → V) (k : String) :
    dictGet (ns.map fun n => (n, f n)) k = if k ∈ ns then some (f k) else none := by
  induction ns with
  | nil => simp [dictGet]
  | cons m ms ih =>
    by_cases hmk : m = k
    · have hb : (m == k) = true := beq_iff_eq.mpr hmk
      simp only [List.map_cons, dictGet, List.find?, hb]
      subst hmk
      simp
    · have hb : (m == k) = false := beq_false_of_ne hmk
      simp only [List.map_cons, dictGet, List.find?, hb]
      rw [← dictGet, ih]
      by_cases hk : k ∈ ms
      · simp [hk, List.mem_cons]
      · simp [hk, List.mem_cons, Ne.symm hmk]

theorem valuesChanged_keys_nodup {V : Type} [DecidableEq V]
    (newD oldD ch0 : List (String × V)) (h : (ch0.map Prod.fst).Nodup) :
    ((valuesChanged newD oldD ch0).map Prod.fst).Nodup := by
  induction newD generalizing ch0 with
  | nil => exact h
  | cons e es ih =>
    have hstep : valuesChanged (e :: es) oldD ch0 =
        valuesChanged es oldD
          (if some e.2 ≠ dictGet oldD e.1 then dictSet ch0 e.1 e.2
           else if (dictGet ch0 e.1).isSome then dictPop ch0 e.1 else ch0) := rfl
    rw [hstep]
    by_cases hd : some e.2 ≠ dictGet oldD e.1
    · rw [if_pos hd]
      exact ih _ (keys_dictSet_nodup _ _ _ h)
    · rw [if_neg hd]
      by_cases hs : (dictGet ch0 e.1).isSome
      · rw [if_pos hs]
        exact ih _ (keys_dictPop_nodup _ _ h)
      · rw [if_neg hs]
        exact ih _ h

theorem valuesChanged_get {V : Type} [DecidableEq V] (f g : String → V) :
    ∀ (ms : List String) (oldD ch : List (String × V)),
      (∀ n ∈ ms, dictGet oldD n = some (g n)) →
      ∀ k, dictGet (valuesChanged (ms.map fun n => (n, f n)) oldD ch) k =
        if k ∈ ms then (if f k = g k then none else some (f k)) else dictGet ch k := by
  intro ms
  induction ms with
  | nil =>
    intro oldD ch _ k
    simp [valuesChanged]
  | cons m rest ih =>
    intro oldD ch hold k
    have holdm : dictGet oldD m = some (g m) := hold m (List.mem_cons_self _ _)
    have hstep : valuesChanged ((m :: rest).map fun n => (n, f n)) oldD ch =
        valuesChanged (rest.map fun n => (n, f n)) oldD
          (if f m = g m then (if (dictGet ch m).isSome then dictPop ch m else ch)
           else dictSet ch m (f m)) := by
      show (((m :: rest).map fun n => (n, f n)).foldl _ ch) = _
      rw [List.map_cons, List.foldl_cons]
      congr 1
      rw [holdm]
      by_cases hfg : f m = g m
      · have hcond : ¬ some (f m) ≠ some (g m) := by simp [hfg]
        rw [if_neg hcond, if_pos hfg]
      · have hcond : some (f m) ≠ some (g m) := by simpa using hfg
        rw [if_pos hcond, if_neg hfg]
    rw [hstep, ih oldD _ (fun n hn => hold n (List.mem_cons_of_mem _ hn)) k]
    by_cases hkrest : k ∈ rest
    · simp [hkrest, List.mem_cons]
    · by_cases hkm : k = m
      · subst hkm
        have hmem : k ∈ k :: rest := List.mem_cons_self _ _
        rw [if_neg hkrest, if_pos hmem]
        by_cases hfg : f k = g k
        · rw [if_pos hfg, if_pos hfg]
          by_cases hs : (dictGet ch k).isSome
          · rw [if_pos hs, dictGet_dictPop, if_pos rfl]
          · rw [if_neg hs]
            exact Option.not_isSome_iff_eq_none.mp hs
        · rw [if_neg hfg, if_neg hfg, dictGet_dictSet, if_pos rfl]
      · have hnotin : k ∉ m :: rest := by
          simp [List.mem_cons, hkm, hkrest]
        rw [if_neg hkrest, if_neg hnotin]
        by_cases hfg : f m = g m
        · rw [if_pos hfg]
          by_cases hs : (dictGet ch m).isSome
          · rw [if_pos hs, dictGet_dictPop, if_neg hkm]
          · rw [if_neg hs]
        · rw [if_neg hfg, dictGet_dictSet, if_neg hkm]

theorem setSetting_self {V : Type} (f : String → String → V) (p n : String) (v : V) :
    setSetting f p n v p n = v := by
  simp [setSetting]

theorem setSetting_other_name {V : Type} (f : String → String → V) (p n : String)
    (v : V) (m : String) (h : m ≠ n) : setSetting f p n v p m = f p m := by
  simp [setSetting, Function.update_noteq h]

theorem setSetting_other_page {V : Type} (f : String → String → V) (p n : String)
    (v : V) (q : String) (h : q ≠ p) : setSetting f p n v q = f q := by
  simp [setSetting, Function.update_noteq h]

theorem applySettings_other {V : Type} (p : String) (ch : List (String × V))
    (q : String) (h : q ≠ p) :
    ∀ f : String → String → V, applySettings f p ch q = f q := by
  induction ch with
  | nil => intro f; rfl
  | cons e es ih =>
    intro f
    show applySettings (setSetting f p e.1 e.2) p es q = f q
    rw [ih (setSetting f p e.1 e.2), setSetting_other_page f p e.1 e.2 q h]

theorem applySettings_get {V : Type} (p : String) (ch : List (String × V))
    (hch : (ch.map Prod.fst).Nodup) (n : String) :
    ∀ f : String → String → V,
      applySettings f p ch p n = (dictGet ch n).getD (f p n) := by
  induction ch with
  | nil =>
    intro f
    simp [applySettings, dictGet]
  | cons e es ih =>
    intro f
    rw [List.map_cons, List.nodup_cons] at hch
    show applySettings (setSetting f p e.1 e.2) p es p n = _
    by_cases hne : n = e.1
    · have hb : (e.1 == n) = true := beq_iff_eq.mpr hne.symm
      have hnone : dictGet es n = none := by
        refine dictGet_eq_none_of_not_mem es n fun hc => ?_
        rw [hne] at hc
        exact hch.1 hc
      rw [ih hch.2, hnone]
      simp only [dictGet, List.find?, hb, Option.map_some', Option.getD_some,
        Option.getD_none]
      rw [hne, setSetting_self]
    · have hb : (e.1 == n) = false := beq_false_of_ne fun h => hne h.symm
      rw [ih hch.2]
      simp only [dictGet, List.find?, hb]
      cases hes : (es.find? fun x => x.1 == n) with
      | none =>
        simp only [Option.map_none', Option.getD_none]
        exact setSetting_other_name f p e.1 e.2 n hne
      | some x => simp

theorem checkDifferences_cancel {V : Type} [DecidableEq V] (orig : String → String → V)
    (names : String → List String) (st : PrefState V) (p : String)
    (horig : st.valuesOrig p = (names p).map fun n => (n, orig p n))
    (hch : ∀ q, ((st.changed q).map Prod.fst).Nodup) :
    (∀ n ∈ names p,
      (checkDifferences p (st.valuesOrig p) (pageValues st names p) st).settings p n =
        orig p n) ∧
    (∀ q, q ≠ p →
      (checkDifferences p (st.valuesOrig p) (pageValues st names p) st).settings q =
        st.settings q) ∧
    (checkDifferences p (st.valuesOrig p) (pageValues st names p) st).valuesOrig =
      st.valuesOrig ∧
    (∀ q, (((checkDifferences p (st.valuesOrig p) (pageValues st names p) st).changed
        q).map Prod.fst).Nodup) := by
  have hold : ∀ n ∈ names p, dictGet (pageValues st names p) n =
      some (st.settings p n) := by
    intro n hn
    show dictGet ((names p).map fun m => (m, st.settings p m)) n = _
    rw [dictGet_mapNames, if_pos hn]
  have hget : ∀ k, dictGet (valuesChanged (st.valuesOrig p) (pageValues st names p)
      (st.changed p)) k =
      if k ∈ names p then
        (if orig p k = st.settings p k then none else some (orig p k))
      else dictGet (st.changed p) k := by
    intro k
    rw [horig]
    exact valuesChanged_get (orig p) (fun n => st.settings p n) (names p)
      (pageValues st names p) (st.changed p) hold k
  have hnodup2 : ((valuesChanged (st.valuesOrig p) (pageValues st names p)
      (st.changed p)).map Prod.fst).Nodup :=
    valuesChanged_keys_nodup _ _ _ (hch p)
  by_cases hlen : 0 < (valuesChanged (st.valuesOrig p) (pageValues st names p)
      (st.changed p)).length
  · have hcd : checkDifferences p (st.valuesOrig p) (pageValues st names p) st =
        { st with
          settings := applySettings st.settings p
            (valuesChanged (st.valuesOrig p) (pageValues st names p) (st.changed p))
          valuesDict := Function.update st.valuesDict p (st.valuesOrig p)
          changed := Function.update st.changed p
            (valuesChanged (st.valuesOrig p) (pageValues st names p) (st.changed p)) } := by
      unfold checkDifferences
      rw [if_pos hlen]
    rw [hcd]
    refine ⟨?_, ?_, rfl, ?_⟩
    · intro n hn
      show applySettings st.settings p _ p n = orig p n
      rw [applySettings_get p _ hnodup2 n st.settings, hget n, if_pos hn]
      by_cases heq : orig p n = st.settings p n
      · rw [if_pos heq]
        exact heq.symm
      · rw [if_neg heq]
        rfl
    · intro q hq
      exact applySettings_other p _ q hq st.settings
    · intro q
      by_cases hqp : q = p
      · subst hqp
        show ((Function.update st.changed q _ q).map Prod.fst).Nodup
        rw [Function.update_same]
        exact hnodup2
      · show ((Function.update st.changed p _ q).map Prod.fst).Nodup
        rw [Function.update_noteq hqp]
        exact hch q
  · have hempty : valuesChanged (st.valuesOrig p) (pageValues st names p)
        (st.changed p) = [] := by
      cases hvc : valuesChanged (st.valuesOrig p) (pageValues st names p) (st.changed p)
      · rfl
      · rw [hvc] at hlen
        simp at hlen
    have hcd : checkDifferences p (st.valuesOrig p) (pageValues st names p) st =
        { st with
          changed := Function.update st.changed p
            (valuesChanged (st.valuesOrig p) (pageValues st names p) (st.changed p)) } := by
      unfold checkDifferences
      rw [if_neg hlen]
    rw [hcd]
    refine ⟨?_, fun q _ => rfl, rfl, ?_⟩
    · intro n hn
      show st.settings p n = orig p n
      have hnone := hget n
      rw [hempty, if_pos hn] at hnone
      by_cases heq : orig p n = st.settings p n
      · exact heq.symm
      · rw [if_neg heq] at hnone
        simp [dictGet] at hnone
    · intro q
      by_cases hqp : q = p
      · subst hqp
        show ((Function.update st.changed q _ q).map Prod.fst).Nodup
        rw [Function.update_same]
        exact hnodup2
      · show ((Function.update st.changed p _ q).map Prod.fst).Nodup
        rw [Function.update_noteq hqp]
        exact hch q

theorem onClickCancel_aux {V : Type} [DecidableEq V] (orig : String → String → V)
    (names : String → List String) :
    ∀ (pages : List String) (st : PrefState V),
      (∀ q, st.valuesOrig q = (names q).map fun n => (n, orig q n)) →
      (∀ q, ((st.changed q).map Prod.fst).Nodup) →
      (∀ p ∈ pages, ∀ n ∈ names p,
        (onClickCancel pages names st).settings p n = orig p n) ∧
      (∀ q, (∀ n ∈ names q, st.settings q n = orig q n) →
        ∀ n ∈ names q, (onClickCancel pages names st).settings q n = orig q n) := by
  intro pages
  induction pages with
  | nil =>
    intro st _ _
    exact ⟨fun p hp => absurd hp (List.not_mem_nil p), fun q hq => hq⟩
  | cons p ps ih =>
    intro st horig hch
    obtain ⟨hA, hB, hC, hD⟩ := checkDifferences_cancel orig names st p (horig p) hch
    have horig2 : ∀ q,
        (checkDifferences p (st.valuesOrig p) (pageValues st names p) st).valuesOrig q =
          (names q).map fun n => (n, orig q n) := by
      intro q
      rw [hC]
      exact horig q
    have hstep : onClickCancel (p :: ps) names st =
        onClickCancel ps names
          (checkDifferences p (st.valuesOrig p) (pageValues st names p) st) := rfl
    obtain ⟨ih1, ih2⟩ := ih _ horig2 hD
    rw [hstep]
    constructor
    · intro p' hp' n hn
      rcases List.mem_cons.mp hp' with rfl | hmem
      · exact ih2 p' hA n hn
      · exact ih1 p' hmem n hn
    · intro q hq n hn
      by_cases hqp : q = p
      · subst hqp
        exact ih2 q hA n hn
      · refine ih2 q ?_ n hn
        intro m hm
        rw [hB q hqp]
        exact hq m hm

/-- C10: cancelling the preferences dialog (`on_click_cancel`, also
reached from `reject` via the `rejected` signal) restores every
user-exposed setting on every page shown in the dialog to the value it
had when the dialog was opened, whatever edits were applied to the
settings store and whatever the changed-settings bookkeeping holds during
the session. -/
theorem preferences_cancel_restores (V : Type) [DecidableEq V]
    (orig cur : String → String → V) (names : String → List String)
    (vd ch : String → List (String × V)) (pages : List String)
    (hch : ∀ q, ((ch q).map Prod.fst).Nodup) :
    ∀ p ∈ pages, ∀ n ∈ names p,
      (onClickCancel pages names
        (PrefState.mk cur (fun q => (names q).map fun n => (n, orig q n)) vd
          ch)).settings p n = orig p n := by
  intro p hp n hn
  exact (onClickCancel_aux orig names pages
    (PrefState.mk cur (fun q => (names q).map fun n => (n, orig q n)) vd ch)
    (fun q => rfl) hch).1 p hp n hn

/-- Witness for C10 at a concrete input: one page with one setting whose
original value 0 was edited to 1 during the session; cancelling restores
it to 0. -/
theorem preferences_cancel_restores_witness :
    (∀ q : String, ((([] : List (String × ℕ)).map Prod.fst).Nodup)) ∧
    (onClickCancel [("general")] (fun _ => [("a")])
      (PrefState.mk (fun _ _ => 1)
        (fun q => ((fun _ => [("a")]) q).map fun n => (n, (fun _ _ => (0 : ℕ)) q n))
        (fun _ => []) (fun _ => []))).settings ("general") ("a") = 0 :=
  ⟨fun _ => List.nodup_nil,
    preferences_cancel_restores ℕ (fun _ _ => 0) (fun _ _ => 1) (fun _ => [("a")])
      (fun _ => []) (fun _ => []) [("general")] (fun _ => List.nodup_nil)
      ("general") (List.mem_cons_self _ _) ("a") (List.mem_cons_self _ _)⟩
